import Mathlib

/-!
Verification development for the feed-post-parser worker (`src/main.js`).

The worker scans issue records, extracts a fenced JSON directive from each
body, resolves the `feed` URL named inside it, and rewrites the record with
the resolved posts.  This file gives a shallow embedding of that pipeline:

* strings are `List Char` (JS strings; positions are code-unit indices,
  which coincide with scalar indices on the inputs considered here);
* the two regular expressions of `processIssue` are embedded as explicit
  executable matchers with JavaScript's leftmost / lazy / greedy semantics;
* `JSON.parse` / `JSON.stringify(v, null, 2)` are embedded as an executable
  parser and printer over a JSON value type (objects keep JavaScript's own
  enumeration order: array-index keys ascending first, then string keys in
  insertion order);
* network fetch + markup parsing (axios / cheerio document construction)
  are an external collaborator, modelled as an oracle delivering either an
  error or a parsed XML tree;
* `withRetry`, `ConcurrencyPool`, `logger`/`handleError` and `formatDate`
  live in `utils.js`, which is not part of the sources; they are modelled
  from the specification (each such definition says so in its doc comment).
-/

set_option maxRecDepth 10000

/-! ### Characters and basic list machinery -/

/-- The backquote character (written via its code point). -/
def tick : Char := Char.ofNat 96

/-- String literal to character list. -/
def toL (s : String) : List Char := s.data

/-- JavaScript regular-expression `\s`: the WhiteSpace and LineTerminator
code points. -/
def isJsWs (c : Char) : Bool :=
  let n := c.toNat
  n = 9 || n = 10 || n = 11 || n = 12 || n = 13 || n = 32 || n = 160 ||
  n = 0x1680 || (0x2000 ≤ n && n ≤ 0x200a) || n = 0x2028 || n = 0x2029 ||
  n = 0x202f || n = 0x205f || n = 0x3000 || n = 0xfeff

/-- JSON whitespace accepted by `JSON.parse` between tokens: tab, line
feed, carriage return, space. -/
def isJsonWs (c : Char) : Bool :=
  c = ' ' || c = Char.ofNat 9 || c = Char.ofNat 10 || c = Char.ofNat 13

/-- Length of the maximal `\s*` run at the head of the list. -/
def wsCount : List Char → Nat
  | [] => 0
  | c :: r => if isJsWs c then wsCount r + 1 else 0

/-- Drop JSON whitespace from the head of the list. -/
def skipWs : List Char → List Char
  | [] => []
  | c :: r => if isJsonWs c then skipWs r else c :: r

/-- First index at which `pat` occurs as a contiguous sublist
(`String.prototype.indexOf`). -/
def subIdx (pat : List Char) : List Char → Option Nat
  | [] => if pat = [] then some 0 else none
  | s@(_ :: tl) =>
    if pat.isPrefixOf s then some 0 else (subIdx pat tl).map (· + 1)

/-- Index of the first occurrence of character `c`. -/
def idxOfC (c : Char) : List Char → Option Nat
  | [] => none
  | d :: r => if d = c then some 0 else (idxOfC c r).map (· + 1)

/-- Index of the last occurrence of character `c`. -/
def lastIdxOfC (c : Char) : List Char → Option Nat
  | [] => none
  | d :: r =>
    match lastIdxOfC c r with
    | some i => some (i + 1)
    | none => if d = c then some 0 else none

/-! ### JSON values

`JsonVal` models the values produced by `JSON.parse`.  Numbers keep their
source lexeme (a faithful rendering for every directive whose number
literals are canonical, which `numCanon` below — required by the
well-formedness predicate `jsonWF` — makes precise; for other lexemes
the engine prints the parsed double canonically, or `null` when it is
not finite, which the lexeme-echoing printer does not model); object
fields are listed in JavaScript enumeration order. -/

inductive JsonVal where
  | null : JsonVal
  | bool (b : Bool) : JsonVal
  | num (lexeme : String) : JsonVal
  | str (s : String) : JsonVal
  | arr (items : List JsonVal) : JsonVal
  | obj (fields : List (String × JsonVal)) : JsonVal

/-- Characters that can occur in a JSON number token. -/
def isNumC (c : Char) : Bool :=
  c.isDigit || c = '-' || c = '+' || c = '.' || c = 'e' || c = 'E'

/-- Maximal run of number-token characters at the head. -/
def munchNum : List Char → List Char
  | [] => []
  | c :: r => if isNumC c then c :: munchNum r else []

/-- Validate the exponent part of a number token (and require the token to
end there). -/
def numExp : List Char → Bool
  | [] => true
  | c :: r =>
    if c = 'e' || c = 'E' then
      let r := match r with
        | d :: r' => if d = '+' || d = '-' then r' else d :: r'
        | [] => []
      r ≠ [] && r.all Char.isDigit
    else false

/-- Validate the fraction-then-exponent part of a number token. -/
def numFrac : List Char → Bool
  | [] => numExp []
  | c :: r =>
    if c = '.' then
      let ds := r.takeWhile Char.isDigit
      ds ≠ [] && numExp (r.dropWhile Char.isDigit)
    else numExp (c :: r)

/-- Full-match validation of a JSON number token, i.e. the grammar
`-?(0|[1-9][0-9]*)(\.[0-9]+)?([eE][+-]?[0-9]+)?`. -/
def numOK (l : List Char) : Bool :=
  let l1 := match l with
    | c :: r => if c = '-' then r else c :: r
    | [] => []
  match l1 with
  | [] => false
  | c :: r =>
    if c = '0' then numFrac r
    else c.isDigit && numFrac (r.dropWhile Char.isDigit)

/-- A number lexeme the grammar accepts: nonempty, made of number-token
characters, and a full match of the JSON number grammar.  This is only
the token grammar; see `numCanon` for the lexemes whose re-serialization
is the identity. -/
def numWF (s : String) : Bool :=
  s.data ≠ [] && s.data.all isNumC && numOK s.data

/-- Value of a decimal digit string, most significant digit first. -/
def digitsValGo (acc : Nat) : List Char → Nat
  | [] => acc
  | c :: r => digitsValGo (acc * 10 + (c.toNat - 48)) r

/-- Value of a decimal digit string. -/
def digitsVal (l : List Char) : Nat := digitsValGo 0 l

/-- A number lexeme that `JSON.stringify` echoes byte-for-byte: the
canonical decimal form of an integer of magnitude at most
`2^53 - 1 = 9007199254740991`.  `JSON.parse` turns such a lexeme into the
exact double of that integer, and `Number::toString` renders that double
as the same plain decimal digits (integers below `10^21` are printed
without an exponent, and in the safe range the shortest digit string
that rounds to the double is the integer's own digits), so
print-after-parse is the identity on exactly these lexemes.  Lexemes the
engine would render differently — `1.0` or `1e2` (canonicalized), `-0`
(printed `0`), overflows such as `1e999` (parsed to Infinity, which
`JSON.stringify` renders as `null`) — are rejected. -/
def numCanonL : List Char → Bool
  | [] => false
  | c :: r =>
    if c = '-' then
      match r with
      | [] => false
      | d :: r2 =>
        ((d.isDigit && !(d = '0')) && r2.all Char.isDigit) &&
          decide (digitsVal (d :: r2) ≤ 9007199254740991)
    else
      ((c.isDigit && (r.isEmpty || !(c = '0'))) && r.all Char.isDigit) &&
        decide (digitsVal (c :: r) ≤ 9007199254740991)

/-- Canonical number lexemes, on strings. -/
def numCanon (s : String) : Bool := numCanonL s.data

/-- Whether a number lexeme denotes zero (all mantissa digits are `0`),
used for JavaScript truthiness. -/
def numIsZero (s : String) : Bool :=
  (s.data.takeWhile (fun c => c ≠ 'e' && c ≠ 'E')).all
    (fun c => !c.isDigit || c = '0')

/-! ### JavaScript object key order -/

/-- Whether a key is an array index in the JavaScript sense: the canonical
decimal form of an integer below `2^32 - 1`. -/
def isIdxKey (k : String) : Bool :=
  match k.data with
  | [] => false
  | c :: r =>
    if c = '0' then decide (r = [])
    else
      c.isDigit && r.all Char.isDigit &&
        (k.data.foldl (fun a c => a * 10 + c.toNat - 48) 0) < 4294967295

/-- Numeric value of an array-index key. -/
def idxVal (k : String) : Nat :=
  k.data.foldl (fun a c => a * 10 + c.toNat - 48) 0

/-- Insert a fresh array-index key into the index block, keeping the
ascending numeric order that JavaScript enumerates index keys in. -/
def insertIdx (k : String) (x : JsonVal) :
    List (String × JsonVal) → List (String × JsonVal)
  | [] => [(k, x)]
  | (k', y) :: r =>
    if isIdxKey k' && idxVal k' < idxVal k then
      (k', y) :: insertIdx k x r
    else (k, x) :: (k', y) :: r

/-- Define a property on a JavaScript object: overwrite in place when the
key exists, otherwise create it (array-index keys enumerate in ascending
numeric order, string keys in creation order).  This models both the
building of objects by `JSON.parse` and the assignment
`jsonData.posts = posts`. -/
def insertKey (es : List (String × JsonVal)) (k : String) (x : JsonVal) :
    List (String × JsonVal) :=
  if es.any (fun e => e.1 = k) then
    es.map (fun e => if e.1 = k then (k, x) else e)
  else if isIdxKey k then insertIdx k x es
  else es ++ [(k, x)]

/-- Enumeration order reached by defining the listed properties in order
on a fresh object. -/
def buildObj (es : List (String × JsonVal)) : List (String × JsonVal) :=
  es.foldl (fun acc e => insertKey acc e.1 e.2) []

/-- Property lookup (`jsonData.feed`). -/
def getKey (v : JsonVal) (k : String) : Option JsonVal :=
  match v with
  | .obj es => (es.find? (fun e => e.1 = k)).map (·.2)
  | _ => none

/-- Property assignment on a directive object (`jsonData.posts = posts`);
on non-objects the assignment is irrelevant to the pipeline. -/
def setKey (v : JsonVal) (k : String) (x : JsonVal) : JsonVal :=
  match v with
  | .obj es => .obj (insertKey es k x)
  | w => w

/-- JavaScript truthiness of an optionally-present JSON value, as used by
`if (feedUrl)`. -/
def truthy : Option JsonVal → Bool
  | none => false
  | some .null => false
  | some (.bool b) => b
  | some (.num l) => !numIsZero l
  | some (.str s) => s ≠ ""
  | some (.arr _) => true
  | some (.obj _) => true

/-! ### `JSON.stringify(v, null, 2)` -/

/-- Lower-case hexadecimal digit. -/
def hexDig (n : Nat) : Char :=
  if n < 10 then Char.ofNat (48 + n) else Char.ofNat (87 + n)

/-- Escape one character the way `QuoteJSONString` does. -/
def escC (c : Char) : List Char :=
  if c = '"' then ['\\', '"']
  else if c = '\\' then ['\\', '\\']
  else if c = Char.ofNat 8 then ['\\', 'b']
  else if c = Char.ofNat 9 then ['\\', 't']
  else if c = Char.ofNat 10 then ['\\', 'n']
  else if c = Char.ofNat 12 then ['\\', 'f']
  else if c = Char.ofNat 13 then ['\\', 'r']
  else if c.toNat < 32 then
    ['\\', 'u', '0', '0', hexDig (c.toNat / 16), hexDig (c.toNat % 16)]
  else [c]

/-- Escape a character list. -/
def escStr : List Char → List Char
  | [] => []
  | c :: r => escC c ++ escStr r

/-- Quote a string for JSON output. -/
def strQ (s : String) : List Char := '"' :: escStr s.data ++ ['"']

/-- Indentation emitted by `JSON.stringify` with gap two at nesting depth
`n`. -/
def indChars (n : Nat) : List Char := List.replicate (2 * n) ' '

mutual

/-- Output of `JSON.stringify(v, null, 2)` at nesting depth `lvl`.  The
number case emits the stored lexeme, which agrees with the engine
precisely on canonical lexemes (`numCanon`, required by `jsonWF`); the
engine's canonical re-rendering of other lexemes (and its `null` output
for non-finite values) is outside this printer, so statements that use
it to stand for `JSON.stringify` carry `jsonWF`. -/
def strVal (lvl : Nat) : JsonVal → List Char
  | .null => toL "null"
  | .bool true => toL "true"
  | .bool false => toL "false"
  | .num s => s.data
  | .str s => strQ s
  | .arr [] => ['[', ']']
  | .arr (x :: xs) =>
    '[' :: Char.ofNat 10 :: indChars (lvl + 1) ++ strVal (lvl + 1) x ++
      strArrT (lvl + 1) xs ++ Char.ofNat 10 :: indChars lvl ++ [']']
  | .obj [] => ['{', '}']
  | .obj (e :: es) =>
    '{' :: Char.ofNat 10 :: indChars (lvl + 1) ++ strEnt (lvl + 1) e ++
      strObjT (lvl + 1) es ++ Char.ofNat 10 :: indChars lvl ++ ['}']

/-- Remaining array items, each preceded by `,\n` and indentation. -/
def strArrT (lvl : Nat) : List JsonVal → List Char
  | [] => []
  | x :: xs =>
    ',' :: Char.ofNat 10 :: indChars lvl ++ strVal lvl x ++ strArrT lvl xs

/-- One object entry: quoted key, colon, space, value. -/
def strEnt (lvl : Nat) (e : String × JsonVal) : List Char :=
  strQ e.1 ++ ':' :: ' ' :: strVal lvl e.2

/-- Remaining object entries, each preceded by `,\n` and indentation. -/
def strObjT (lvl : Nat) : List (String × JsonVal) → List Char
  | [] => []
  | e :: es =>
    ',' :: Char.ofNat 10 :: indChars lvl ++ strEnt lvl e ++ strObjT lvl es

end

/-! ### `JSON.parse` -/

/-- Numeric value of a hexadecimal digit, `16` on a non-digit. -/
def hexVal (c : Char) : Nat :=
  let n := c.toNat
  if 48 ≤ n && n ≤ 57 then n - 48
  else if 97 ≤ n && n ≤ 102 then n - 87
  else if 65 ≤ n && n ≤ 70 then n - 55
  else 16

/-- Fueled scanner for the body of a JSON string literal (see `pStrL`).
-/
def pStrLGo : Nat → List Char → Option (List Char × List Char)
  | 0, _ => none
  | _ + 1, [] => none
  | g + 1, c :: r =>
    if c = '"' then some ([], r)
    else if c = '\\' then
      match r with
      | [] => none
      | e :: r2 =>
        if e = 'u' then
          match r2 with
          | a :: b :: c2 :: d :: r3 =>
            if hexVal a < 16 && hexVal b < 16 && hexVal c2 < 16 && hexVal d < 16 then
              let n := ((hexVal a * 16 + hexVal b) * 16 + hexVal c2) * 16 + hexVal d
              if 0xd800 ≤ n && n ≤ 0xdbff then
                match r3 with
                | e2 :: e3 :: a' :: b' :: c' :: d' :: r4 =>
                  if e2 = '\\' && e3 = 'u' then
                    let m := ((hexVal a' * 16 + hexVal b') * 16 + hexVal c') * 16 + hexVal d'
                    if 0xdc00 ≤ m && m ≤ 0xdfff then
                      let cp := 0x10000 + (n - 0xd800) * 0x400 + (m - 0xdc00)
                      (pStrLGo g r4).map (fun p => (Char.ofNat cp :: p.1, p.2))
                    else none
                  else none
                | _ => none
              else if 0xdc00 ≤ n && n ≤ 0xdfff then none
              else (pStrLGo g r3).map (fun p => (Char.ofNat n :: p.1, p.2))
            else none
          | _ => none
        else if e = '"' then (pStrLGo g r2).map (fun p => ('"' :: p.1, p.2))
        else if e = '\\' then (pStrLGo g r2).map (fun p => ('\\' :: p.1, p.2))
        else if e = '/' then (pStrLGo g r2).map (fun p => ('/' :: p.1, p.2))
        else if e = 'b' then (pStrLGo g r2).map (fun p => (Char.ofNat 8 :: p.1, p.2))
        else if e = 'f' then (pStrLGo g r2).map (fun p => (Char.ofNat 12 :: p.1, p.2))
        else if e = 'n' then (pStrLGo g r2).map (fun p => (Char.ofNat 10 :: p.1, p.2))
        else if e = 'r' then (pStrLGo g r2).map (fun p => (Char.ofNat 13 :: p.1, p.2))
        else if e = 't' then (pStrLGo g r2).map (fun p => (Char.ofNat 9 :: p.1, p.2))
        else none
    else if c.toNat < 32 then none
    else (pStrLGo g r).map (fun p => (c :: p.1, p.2))

/-- Parse the body of a JSON string literal (after the opening quote),
returning the decoded characters and the input after the closing quote.
Surrogate pairs in `\u` escapes are combined; a lone surrogate cannot be
represented as a scalar value and makes the parse fail.  The fuel is the
input length, which every step stays under. -/
def pStrL (l : List Char) : Option (List Char × List Char) :=
  pStrLGo l.length l

mutual

/-- Fueled recursive-descent value grammar of `JSON.parse`. -/
def pVal : Nat → List Char → Option (JsonVal × List Char)
  | 0, _ => none
  | g + 1, s =>
    match skipWs s with
    | [] => none
    | c :: r =>
      if c = '{' then
        match skipWs r with
        | c2 :: r2 => if c2 = '}' then some (.obj [], r2) else pObjLoop g (c2 :: r2) []
        | [] => none
      else if c = '[' then
        match skipWs r with
        | c2 :: r2 =>
          if c2 = ']' then some (.arr [], r2)
          else
            match pVal g (c2 :: r2) with
            | some (x, rest) => pArrLoop g rest [x]
            | none => none
        | [] => none
      else if c = '"' then
        (pStrL r).map (fun p => (.str (String.mk p.1), p.2))
      else if c = 't' then
        if (toL "rue").isPrefixOf r then some (.bool true, r.drop 3) else none
      else if c = 'f' then
        if (toL "alse").isPrefixOf r then some (.bool false, r.drop 4) else none
      else if c = 'n' then
        if (toL "ull").isPrefixOf r then some (.null, r.drop 3) else none
      else
        let tok := munchNum (c :: r)
        if tok ≠ [] && numOK tok then
          some (.num (String.mk tok), (c :: r).drop tok.length)
        else none

/-- Array continuation: expects `,` followed by a value, or `]`. -/
def pArrLoop : Nat → List Char → List JsonVal → Option (JsonVal × List Char)
  | 0, _, _ => none
  | g + 1, s, acc =>
    match skipWs s with
    | [] => none
    | c :: r =>
      if c = ']' then some (.arr acc.reverse, r)
      else if c = ',' then
        match pVal g r with
        | some (x, rest) => pArrLoop g rest (x :: acc)
        | none => none
      else none

/-- Object member loop: expects a quoted key, `:`, a value, then `,` or
`}`; members are defined on the object in textual order. -/
def pObjLoop : Nat → List Char → List (String × JsonVal) →
    Option (JsonVal × List Char)
  | 0, _, _ => none
  | g + 1, s, acc =>
    match skipWs s with
    | [] => none
    | c :: r =>
      if c = '"' then
        match pStrL r with
        | some (kl, rest) =>
          match skipWs rest with
          | c2 :: r2 =>
            if c2 = ':' then
              match pVal g r2 with
              | some (x, rest2) =>
                let acc2 := insertKey acc (String.mk kl) x
                match skipWs rest2 with
                | c3 :: r3 =>
                  if c3 = ',' then pObjLoop g r3 acc2
                  else if c3 = '}' then some (.obj acc2, r3)
                  else none
                | [] => none
              | none => none
            else none
          | [] => none
        | none => none
      else none

end

/-- `JSON.parse` on a whole text: one value surrounded by whitespace. -/
def jsonParse (s : List Char) : Option JsonVal :=
  match pVal (s.length + 1) s with
  | some (v, rest) => if skipWs rest = [] then some v else none
  | none => none

/-! ### Well-formed JSON values

A value is well-formed when its number lexemes are canonical
safe-integer literals — exactly the lexemes `JSON.stringify` prints back
byte-for-byte (see `numCanon`; grammatical but non-canonical lexemes
such as `1.0`, `1e2` or the overflowing `1e999`, which the engine
re-renders canonically or as `null`, are excluded) — and its objects are
already in JavaScript enumeration order with distinct keys (so that
re-defining their properties in order reproduces them).  The output of
`JSON.parse` has this shape exactly when its number lexemes are
canonical in this sense; statements that rely on the printer echoing a
value carry this predicate as a hypothesis. -/

mutual

/-- Well-formedness of a JSON value (see section comment). -/
def jsonWF : JsonVal → Prop
  | .null => True
  | .bool _ => True
  | .num s => numCanon s = true
  | .str _ => True
  | .arr xs => jsonWFL xs
  | .obj es => buildObj es = es ∧ jsonWFE es

/-- Well-formedness of every item. -/
def jsonWFL : List JsonVal → Prop
  | [] => True
  | x :: xs => jsonWF x ∧ jsonWFL xs

/-- Well-formedness of every field value. -/
def jsonWFE : List (String × JsonVal) → Prop
  | [] => True
  | e :: es => jsonWF e.2 ∧ jsonWFE es

end

/-! ### The fenced-block regular expressions of `processIssue`

`issue.body.match(/```json\s*\{[\s\S]*?\}\s*```/m)` finds the leftmost,
lazily-shortest occurrence of a fenced JSON block, and
`match[0].match(/\{[\s\S]*\}/m)` then captures the greedy widest brace
span inside it.  Both are embedded as explicit matchers with exactly the
backtracking behaviour of the JavaScript engine on these patterns. -/

/-- The literal `json` fence opener. -/
def fenceOpen : List Char := [tick, tick, tick, 'j', 's', 'o', 'n']

/-- The literal triple backquote. -/
def ticks3 : List Char := [tick, tick, tick]

/-- Complete the lazy part of the fence pattern: scanning forward from the
character after the opening `{`, find the least extension ending in `}`
followed by `\s*` and a closing triple backquote; returns the number of
characters consumed through the closing fence. -/
def scanClose : List Char → Option Nat
  | [] => none
  | c :: cs =>
    if c = '}' then
      let w := wsCount cs
      if ticks3.isPrefixOf (cs.drop w) then some (1 + w + 3)
      else (scanClose cs).map (· + 1)
    else (scanClose cs).map (· + 1)

/-- Match the fence pattern at the head of the list, returning the length
of the match. -/
def fenceAt (s : List Char) : Option Nat :=
  if fenceOpen.isPrefixOf s then
    let r := s.drop 7
    let w := wsCount r
    match r.drop w with
    | c :: body => if c = '{' then (scanClose body).map (fun k => 7 + w + 1 + k) else none
    | [] => none
  else none

/-- Leftmost match of the fence pattern: start index and length. -/
def fenceFind : List Char → Option (Nat × Nat)
  | [] => none
  | s@(_ :: tl) =>
    match fenceAt s with
    | some len => some (0, len)
    | none => (fenceFind tl).map (fun p => (p.1 + 1, p.2))

/-- The greedy inner pattern `/\{[\s\S]*\}/` on the fenced match: from the
first `{` to the last `}` (when the latter comes after the former);
returns start index and length. -/
def innerMatch (m : List Char) : Option (Nat × Nat) :=
  match idxOfC '{' m, lastIdxOfC '}' m with
  | some i, some j => if i < j then some (i, j - i + 1) else none
  | _, _ => none

/-- Both regex phases combined: the captured JSON span of a body, as its
absolute start position and text.  `none` models the `!jsonMatch` check of
`processIssue`. -/
def extractSpan (b : List Char) : Option (Nat × List Char) :=
  match fenceFind b with
  | none => none
  | some (st, flen) =>
    let m := (b.drop st).take flen
    match innerMatch m with
    | none => none
    | some (i, l) => some (st + i, (m.drop i).take l)

/-! ### `String.prototype.replace` with a string pattern -/

/-- `GetSubstitution` for a string pattern: expand `$$`, `$&`, a dollar
followed by a backquote (the part of the string before the match) and
`$'` (the part after the match) in the replacement text. -/
def applyDollar (matched pre post : List Char) : List Char → List Char
  | [] => []
  | c :: r =>
    if c = '$' then
      match r with
      | d :: r2 =>
        if d = '$' then '$' :: applyDollar matched pre post r2
        else if d = '&' then matched ++ applyDollar matched pre post r2
        else if d = tick then pre ++ applyDollar matched pre post r2
        else if d = Char.ofNat 39 then post ++ applyDollar matched pre post r2
        else '$' :: d :: applyDollar matched pre post r2
      | [] => ['$']
    else c :: applyDollar matched pre post r

/-- `s.replace(pat, repl)` with string arguments: substitute the first
occurrence of `pat`, applying `$` expansion to `repl`. -/
def replaceFirst (s pat repl : List Char) : List Char :=
  match subIdx pat s with
  | none => s
  | some i =>
    s.take i ++ applyDollar pat (s.take i) (s.drop (i + pat.length)) repl ++
      s.drop (i + pat.length)

/-! ### Feed documents and `parseFeed`

The network fetch and cheerio's text-to-tree parsing are external
collaborators; a fetch outcome is therefore an oracle value: either a
network/timeout error or the parsed XML tree of the response body. -/

/-- A node of the parsed markup tree. -/
inductive XNode where
  | elem (tag : String) (attrs : List (String × String)) (children : List XNode)
  | txt (s : String)

/-- A parsed document: the root node list. -/
abbrev XDoc := List XNode

mutual

/-- All elements of a subtree in document order, the root included when it
is an element. -/
def allElems : XNode → List XNode
  | .elem t a c => .elem t a c :: allElemsL c
  | .txt _ => []

/-- All elements under a node list in document order. -/
def allElemsL : List XNode → List XNode
  | [] => []
  | n :: r => allElems n ++ allElemsL r

end

mutual

/-- Concatenated text content of a node (`.text()`). -/
def textOf : XNode → String
  | .elem _ _ c => textOfL c
  | .txt s => s

/-- Concatenated text content of a node list. -/
def textOfL : List XNode → String
  | [] => ""
  | n :: r => textOf n ++ textOfL r

end

/-- Tag of an element node (text nodes have none). -/
def tagOf : XNode → Option String
  | .elem t _ _ => some t
  | .txt _ => none

/-- Attribute lookup on a node. -/
def attrOf (k : String) : XNode → Option String
  | .elem _ attrs _ => (attrs.find? (fun a => a.1 = k)).map (·.2)
  | .txt _ => none

/-- Direct element children of a node. -/
def childElems : XNode → List XNode
  | .elem _ _ c => c.filter (fun n => (tagOf n).isSome)
  | .txt _ => []

/-- Descendant elements of a node with the given tag (`$node.find(tag)`,
which excludes the node itself). -/
def findDesc (tag : String) : XNode → List XNode
  | .elem _ _ c => (allElemsL c).filter (fun n => tagOf n = some tag)
  | .txt _ => []

/-- The selector `feed > entry` over the whole document. -/
def atomEntries (doc : XDoc) : List XNode :=
  ((allElemsL doc).filter (fun n => tagOf n = some "feed")).flatMap
    (fun f => (childElems f).filter (fun n => tagOf n = some "entry"))

/-- The selector `rss > channel > item` over the whole document. -/
def rssItems (doc : XDoc) : List XNode :=
  ((allElemsL doc).filter (fun n => tagOf n = some "rss")).flatMap
    (fun r => ((childElems r).filter (fun n => tagOf n = some "channel")).flatMap
      (fun c => (childElems c).filter (fun n => tagOf n = some "item")))

/-- Truthiness of an optional string (`undefined` and the empty string are
falsy). -/
def optTruthy : Option String → Bool
  | none => false
  | some s => s ≠ ""

/-- A normalized post record. -/
structure Post where
  title : String
  link : String
  published : String

/-- `.first().text()` on a selection: text of the first node, or the empty
string on an empty selection. -/
def firstText (sel : List XNode) : String :=
  match sel with
  | n :: _ => textOf n
  | [] => ""

/-- Extraction of one Atom entry, given the date formatter: the record is
produced only when both title and link are truthy. -/
def entryRecordAtom (fmt : String → String) (e : XNode) : Option Post :=
  let title := firstText (findDesc "title" e)
  let alt := ((findDesc "link" e).filter
    (fun n => attrOf "rel" n = some "alternate")).head?.bind (attrOf "href")
  let link := if optTruthy alt then alt
    else (findDesc "link" e).head?.bind (attrOf "href")
  let pub := firstText (findDesc "published" e)
  let fp := if pub ≠ "" then fmt pub else ""
  if title ≠ "" && optTruthy link then
    some ⟨title, link.getD "", fp⟩
  else none

/-- Extraction of one Rss item: the link is the text content of the first
`link` element. -/
def entryRecordRss (fmt : String → String) (e : XNode) : Option Post :=
  let title := firstText (findDesc "title" e)
  let link := firstText (findDesc "link" e)
  let pub := firstText (findDesc "pubDate" e)
  let fp := if pub ≠ "" then fmt pub else ""
  if title ≠ "" && link ≠ "" then
    some ⟨title, link, fp⟩
  else none

/-- A log event handed to the logging collaborator.  Interpolated payloads
that do not affect any claim are abbreviated. -/
inductive LogEv where
  | info (msg : String)
  | warn (msg : String)
  | err (msg : String)

/-- The pure body of `parseFeed` on an already-fetched document: dialect
detection, truncation to `maxPosts`, and record extraction. -/
def parseFeedPure (maxPosts : Nat) (fmt : String → String) (doc : XDoc) :
    List Post :=
  let items := atomEntries doc
  if items.length = 0 then
    ((rssItems doc).take maxPosts).filterMap (entryRecordRss fmt)
  else
    (items.take maxPosts).filterMap (entryRecordAtom fmt)

/-- `parseFeed` on a fetch outcome: the `try`/`catch` maps every failed
outcome to the empty post list after logging it via `handleError`
(modelled from the spec: `handleError` lives in `utils.js` and logs the
error). -/
def parseFeedRun (maxPosts : Nat) (fmt : String → String)
    (out : Except Unit XDoc) : List Post × List LogEv :=
  match out with
  | .error _ => ([], [.err "Error parsing feed"])
  | .ok doc =>
    (parseFeedPure maxPosts fmt doc,
      [.info "Feed URL items"])

/-! ### `withRetry` (modelled from the spec)

`withRetry` is defined in `utils.js`, which is not among the sources. -/

/-- Modelled from the spec: `withRetry(operation, maxAttempts)` from
`utils.js` — the operation is attempted sequentially (the `i`-th
invocation's outcome is `op i`); the first non-failing attempt's result is
returned; when all `maxAttempts` attempts fail the last error is
propagated.  The result is paired with the number of invocations
observed.  The zero-attempt case never arises (`maxAttempts ≥ 1`). -/
def withRetryGo {E A : Type} (op : Nat → Except E A) (i : Nat) :
    Nat → Except E A × Nat
  | 0 => (op i, 1)
  | n + 1 =>
    match op i with
    | .ok a => (.ok a, 1)
    | .error _ =>
      let p := withRetryGo op (i + 1) n
      (p.1, p.2 + 1)

/-- Modelled from the spec: `withRetry` entry point; `maxAttempts` is the
configured `retry_times`. -/
def withRetryC {E A : Type} (op : Nat → Except E A) (maxAttempts : Nat) :
    Except E A × Nat :=
  withRetryGo op 0 (maxAttempts - 1)

/-- The feed-resolution call site of `processIssue`:
`withRetry(() => parseFeed(feedUrl), RETRY_TIMES)`.  Returns the awaited
result together with the number of times `parseFeed` was invoked. -/
def resolveFeed (maxPosts : Nat) (fmt : String → String)
    (oracle : Nat → Except Unit XDoc) (retryTimes : Nat) :
    Except Unit (List Post × List LogEv) × Nat :=
  withRetryC (fun i => .ok (parseFeedRun maxPosts fmt (oracle i))) retryTimes

/-- The JSON array attached by `jsonData.posts = posts`. -/
def postsToJson (ps : List Post) : JsonVal :=
  .arr (ps.map (fun p =>
    .obj [("title", .str p.title), ("link", .str p.link),
      ("published", .str p.published)]))

/-! ### `processIssue` -/

/-- Result of a processed issue: the transformed directive and the new
body text. -/
structure PIResult where
  data : JsonVal
  newBody : List Char

/-- The whole `processIssue` pipeline on one record.  `maxPosts`,
`retryTimes` and `fmt` are the process-wide configuration; `oracle` gives
the fetch outcome of each attempt; `num` is the issue number and `body`
its optional body text.  Returns the optional update together with the
log events emitted. -/
def processIssue (maxPosts retryTimes : Nat) (fmt : String → String)
    (oracle : Nat → Except Unit XDoc) (num : Nat)
    (body : Option (List Char)) : Option PIResult × List LogEv :=
  let lead := LogEv.info ("Processing issue #" ++ toString num)
  match body with
  | none => (none, [lead, .warn ("Issue #" ++ toString num ++ " has no body content, skipping...")])
  | some b =>
    if b.isEmpty then
      (none, [lead, .warn ("Issue #" ++ toString num ++ " has no body content, skipping...")])
    else
      match extractSpan b with
      | none =>
        (none, [lead, .warn ("No JSON content found in issue #" ++ toString num)])
      | some (_, span) =>
        match jsonParse span with
        | none =>
          (none, [lead, .err ("Error processing issue #" ++ toString num)])
        | some v =>
          if truthy (getKey v "feed") then
            match resolveFeed maxPosts fmt oracle retryTimes with
            | (.ok (posts, flogs), _) =>
              let d := setKey v "posts" (postsToJson posts)
              (some ⟨d, replaceFirst b span (strVal 0 d)⟩, [lead] ++ flogs)
            | (.error _, _) =>
              (none, [lead, .err ("Error processing issue #" ++ toString num)])
          else
            (some ⟨v, replaceFirst b span (strVal 0 v)⟩, [lead])

/-! ### `ConcurrencyPool` (modelled from the spec)

`ConcurrencyPool` is defined in `utils.js`, which is not among the
sources.  The spec's state machine is embedded as a deterministic
transition system over an explicit event trace: an `add` event enqueues a
task (identified by its submission identity) and starts queued tasks in
submission order while fewer than `limit` run; a `complete` event retires
a running task — with a success flag, since a task may fail — and starts
the oldest queued task if any.  The resolution of `add`'s promise is
identified with the presence of the task's entry in `done`. -/

/-- An observable event of the pool's cooperative schedule. -/
inductive PoolEv where
  | add (id : Nat)
  | complete (id : Nat) (ok : Bool)

/-- Pool bookkeeping: queued tasks in submission order, currently running
tasks, tasks started so far in start order, and completed tasks with their
success flag in completion order. -/
structure PoolState where
  queued : List Nat
  running : List Nat
  started : List Nat
  done : List (Nat × Bool)

/-- Modelled from the spec: start queued tasks in submission order while
fewer than `limit` are running. -/
def drainQ (limit : Nat) :
    List Nat → List Nat → List Nat → List Nat × List Nat × List Nat
  | [], run, st => ([], run, st)
  | t :: rest, run, st =>
    if run.length < limit then drainQ limit rest (run ++ [t]) (st ++ [t])
    else (t :: rest, run, st)

/-- Modelled from the spec: the draining step applied to a pool state. -/
def drain (limit : Nat) (s : PoolState) : PoolState :=
  let p := drainQ limit s.queued s.running s.started
  ⟨p.1, p.2.1, p.2.2, s.done⟩

/-- Modelled from the spec: one transition of the pool.  `add` enqueues
and drains; `complete` (of a running task, whatever its success flag)
retires the task, records the outcome, and drains. -/
def poolStep (limit : Nat) (s : PoolState) : PoolEv → PoolState
  | .add id => drain limit { s with queued := s.queued ++ [id] }
  | .complete id ok =>
    if id ∈ s.running then
      drain limit
        { s with running := s.running.erase id, done := s.done ++ [(id, ok)] }
    else s

/-- Initial pool state. -/
def poolInit : PoolState := ⟨[], [], [], []⟩

/-- Run the pool over an event trace. -/
def runPool (limit : Nat) (evs : List PoolEv) : PoolState :=
  evs.foldl (poolStep limit) poolInit

/-- Trace validity from a given state: tasks are submitted with fresh
identities and only running tasks complete. -/
def poolValidGo (limit : Nat) (s : PoolState) : List PoolEv → Bool
  | [] => true
  | .add id :: r =>
    !(s.queued.contains id || s.started.contains id) &&
      poolValidGo limit (poolStep limit s (.add id)) r
  | .complete id ok :: r =>
    s.running.contains id &&
      poolValidGo limit (poolStep limit s (.complete id ok)) r

/-- Validity of a whole trace. -/
def poolValid (limit : Nat) (evs : List PoolEv) : Bool :=
  poolValidGo limit poolInit evs

/-- Identities submitted by a trace, in submission order. -/
def addsOf (evs : List PoolEv) : List Nat :=
  evs.filterMap (fun e => match e with | .add id => some id | _ => none)

/-- Completion records carried by a trace, in order. -/
def compsOf (evs : List PoolEv) : List (Nat × Bool) :=
  evs.filterMap (fun e => match e with
    | .complete id ok => some (id, ok)
    | _ => none)

/-- Rewrite the success flags of a trace's completion events (used to
state that the pool's scheduling ignores task failure). -/
def mapFlags (f : Nat → Bool) (evs : List PoolEv) : List PoolEv :=
  evs.map (fun e => match e with
    | .complete id _ => .complete id (f id)
    | e => e)

/-! ### Lemmas about `withRetry` -/

/-- When every invocation fails, the retry loop performs all its attempts
and returns the last error. -/
theorem withRetryGo_allFail {E A : Type} (err : Nat → E)
    (op : Nat → Except E A) (h : ∀ i, op i = .error (err i)) :
    ∀ n i, withRetryGo op i n = (.error (err (i + n)), n + 1) := by
  intro n
  induction n with
  | zero => intro i; simp [withRetryGo, h i]
  | succ m ih =>
    intro i
    simp only [withRetryGo, h i, ih (i + 1)]
    have he : i + 1 + m = i + (m + 1) := by omega
    rw [he]

/-- When every invocation succeeds, only the first attempt runs. -/
theorem withRetryGo_ok {E A : Type} (op : Nat → Except E A)
    (n i : Nat) (a : A) (h : op i = .ok a) :
    withRetryGo op i n = (.ok a, 1) := by
  cases n with
  | zero => simp [withRetryGo, h]
  | succ m => simp [withRetryGo, h]

/-- C3 — `withRetry` attempt accounting: with an operation that fails
twice then succeeds and `maxAttempts = 3`, the success value is returned
and the operation runs exactly 3 times; with an always-failing operation
and `maxAttempts = K ≥ 1`, the final error is propagated and the
operation runs exactly K times.  Sequencing with no overlap is inherent in
the model: the `i`-th invocation is `op i`. -/
theorem withRetry_attempt_counts :
    (∀ (A : Type) (v : A) (op : Nat → Except Unit A),
      op 0 = .error () → op 1 = .error () → op 2 = .ok v →
      withRetryC op 3 = (.ok v, 3)) ∧
    (∀ (E A : Type) (err : Nat → E) (op : Nat → Except E A) (K : Nat),
      1 ≤ K → (∀ i, op i = .error (err i)) →
      withRetryC op K = (.error (err (K - 1)), K)) := by
  constructor
  · intro A v op h0 h1 h2
    simp [withRetryC, withRetryGo, h0, h1, h2]
  · intro E A err op K hK h
    have := withRetryGo_allFail err op h (K - 1) 0
    simpa [withRetryC, Nat.sub_add_cancel hK] using this

/-- Witness for C3 at concrete operations. -/
theorem withRetry_attempt_counts_witness :
    withRetryC (fun i => if i < 2 then Except.error () else Except.ok 42) 3 =
      (Except.ok 42, 3) ∧
    withRetryC (fun _ => (Except.error 7 : Except Nat Nat)) 4 =
      (Except.error 7, 4) :=
  ⟨withRetry_attempt_counts.1 Nat 42 _ rfl rfl rfl,
    withRetry_attempt_counts.2 Nat Nat (fun _ => 7) _ 4 (by decide)
      (fun _ => rfl)⟩

/-- The feed-resolution call site always resolves on the first attempt,
because `parseFeed` catches every error internally. -/
theorem resolveFeed_first (maxPosts : Nat) (fmt : String → String)
    (oracle : Nat → Except Unit XDoc) (K : Nat) :
    resolveFeed maxPosts fmt oracle K =
      (.ok (parseFeedRun maxPosts fmt (oracle 0)), 1) := by
  have := withRetryGo_ok (E := Unit)
    (fun i => Except.ok (parseFeedRun maxPosts fmt (oracle i)))
    (K - 1) 0 (parseFeedRun maxPosts fmt (oracle 0)) rfl
  simpa [resolveFeed, withRetryC] using this

/-- C10 — `parseFeed` is total at its boundary: whatever the fetch
outcome, the operation handed to `withRetry` resolves successfully, so
the wrapper observes exactly one invocation and no failed attempt; a
failed fetch is caught inside `parseFeed` and yields the empty list. -/
theorem parseFeed_total_no_retry (maxPosts : Nat) (fmt : String → String)
    (oracle : Nat → Except Unit XDoc) (K : Nat) (hK : 1 ≤ K) :
    resolveFeed maxPosts fmt oracle K =
      (.ok (parseFeedRun maxPosts fmt (oracle 0)), 1) ∧
    (oracle 0 = .error () →
      (parseFeedRun maxPosts fmt (oracle 0)).1 = []) := by
  constructor
  · exact resolveFeed_first maxPosts fmt oracle K
  · intro h
    simp [parseFeedRun, h]

/-- Witness for C10 at a concrete failing oracle. -/
theorem parseFeed_total_no_retry_witness :
    resolveFeed 2 (fun _ => "") (fun _ => .error ()) 3 =
      (.ok ([], [.err "Error parsing feed"]), 1) := by
  have h := parseFeed_total_no_retry 2 (fun _ => "") (fun _ => .error ()) 3
    (by decide)
  exact h.1

/-- C4 counterexample — with a fetch that always fails with a network
error and `retryAttempts = 3`, `parseFeed` is invoked exactly once: the
error is caught inside `parseFeed` on the first attempt, so the claimed
retrying (3 observed attempts on persistent failure, as in the always-fail
scenario of §8) does not happen. -/
theorem fetch_error_not_retried_cex :
    (resolveFeed 2 (fun _ => "") (fun _ => .error ()) 3).2 = 1 ∧
    (resolveFeed 2 (fun _ => "") (fun _ => .error ()) 3).2 ≠ 3 ∧
    (resolveFeed 2 (fun _ => "") (fun _ => .error ()) 3).1 =
      .ok ([], [.err "Error parsing feed"]) := by
  refine ⟨rfl, by decide, rfl⟩

/-- C4 (amended) — a network/timeout error is caught inside `parseFeed`
on the very first attempt: the retry wrapper observes a success and makes
no further attempt, the record's feed resolution degrades to the empty
post list (the directive still gets `posts: []`), the failure is logged,
and the record is still rewritten rather than aborting anything. -/
theorem feed_error_degrades_to_empty (maxPosts K : Nat)
    (fmt : String → String) (oracle : Nat → Except Unit XDoc) (num : Nat)
    (b : List Char) (p : Nat) (span : List Char) (v : JsonVal)
    (hK : 1 ≤ K) (hb : b ≠ [])
    (hx : extractSpan b = some (p, span)) (hj : jsonParse span = some v)
    (hf : truthy (getKey v "feed") = true)
    (ho : ∀ i, oracle i = .error ()) :
    (processIssue maxPosts K fmt oracle num (some b)).1 =
      some ⟨setKey v "posts" (.arr []),
        replaceFirst b span (strVal 0 (setKey v "posts" (.arr [])))⟩ ∧
    (resolveFeed maxPosts fmt oracle K).2 = 1 ∧
    LogEv.err "Error parsing feed" ∈
      (processIssue maxPosts K fmt oracle num (some b)).2 := by
  have hbe : b.isEmpty = false := by
    cases b with
    | nil => exact absurd rfl hb
    | cons c r => rfl
  have hr : resolveFeed maxPosts fmt oracle K =
      (.ok ([], [.err "Error parsing feed"]), 1) := by
    rw [resolveFeed_first, ho 0]; rfl
  refine ⟨?_, by rw [hr], ?_⟩ <;>
    simp [processIssue, hbe, hx, hj, hf, hr, postsToJson]

/-- Witness for C4's amended theorem at a concrete record and failing
oracle. -/
theorem feed_error_degrades_to_empty_witness :
    (processIssue 2 3 (fun _ => "") (fun _ => .error ()) 1
        (some (toL "```json\n" ++ [Char.ofNat 123] ++ toL "\"feed\": \"u\"" ++
          [Char.ofNat 125] ++ toL "\n```"))).1 =
      some ⟨setKey (.obj [("feed", .str "u")]) "posts" (.arr []),
        replaceFirst
          (toL "```json\n" ++ [Char.ofNat 123] ++ toL "\"feed\": \"u\"" ++
            [Char.ofNat 125] ++ toL "\n```")
          ([Char.ofNat 123] ++ toL "\"feed\": \"u\"" ++ [Char.ofNat 125])
          (strVal 0 (setKey (.obj [("feed", .str "u")]) "posts" (.arr [])))⟩ :=
  (feed_error_degrades_to_empty 2 3 (fun _ => "") (fun _ => .error ()) 1
    (toL "```json\n" ++ [Char.ofNat 123] ++ toL "\"feed\": \"u\"" ++
      [Char.ofNat 125] ++ toL "\n```")
    8 ([Char.ofNat 123] ++ toL "\"feed\": \"u\"" ++ [Char.ofNat 125])
    (.obj [("feed", .str "u")]) (by decide) (by decide)
    (by decide) rfl rfl (fun _ => rfl)).1

/-! ### Lemmas about the pool -/

/-- Draining moves some initial segment of the queue onto the end of both
`running` and `started`. -/
theorem drainQ_spec (limit : Nat) :
    ∀ (q run st : List Nat), ∃ mv,
      q = mv ++ (drainQ limit q run st).1 ∧
      (drainQ limit q run st).2.1 = run ++ mv ∧
      (drainQ limit q run st).2.2 = st ++ mv := by
  intro q
  induction q with
  | nil => intro run st; exact ⟨[], by simp [drainQ]⟩
  | cons t rest ih =>
    intro run st
    by_cases h : run.length < limit
    · obtain ⟨mv, h1, h2, h3⟩ := ih (run ++ [t]) (st ++ [t])
      have hstep : drainQ limit (t :: rest) run st =
          drainQ limit rest (run ++ [t]) (st ++ [t]) := by
        simp [drainQ, h]
      refine ⟨t :: mv, ?_, ?_, ?_⟩
      · rw [hstep, List.cons_append]
        exact congrArg (t :: ·) h1
      · rw [hstep, h2]
        simp
      · rw [hstep, h3]
        simp
    · exact ⟨[], by simp [drainQ, h]⟩

/-- Draining never pushes the running count above the bound. -/
theorem drainQ_le (limit : Nat) :
    ∀ (q run st : List Nat), run.length ≤ limit →
      (drainQ limit q run st).2.1.length ≤ limit := by
  intro q
  induction q with
  | nil => intro run st h; simpa [drainQ] using h
  | cons t rest ih =>
    intro run st h
    by_cases hlt : run.length < limit
    · simpa [drainQ, hlt] using ih (run ++ [t]) (st ++ [t]) (by simpa using hlt)
    · simpa [drainQ, hlt] using h

/-- When the drain leaves the queue nonempty, the pool is saturated. -/
theorem drainQ_full (limit : Nat) :
    ∀ (q run st : List Nat), run.length ≤ limit →
      (drainQ limit q run st).1 ≠ [] →
      (drainQ limit q run st).2.1.length = limit := by
  intro q
  induction q with
  | nil => intro run st _ h; simp [drainQ] at h
  | cons t rest ih =>
    intro run st hle h
    by_cases hlt : run.length < limit
    · simp only [drainQ, hlt, if_true] at h ⊢
      exact ih (run ++ [t]) (st ++ [t]) (by simpa using hlt) h
    · simp only [drainQ, hlt, if_false] at h ⊢
      omega

/-- A saturated pool does not start anything. -/
theorem drainQ_sat (limit : Nat) (q run st : List Nat)
    (h : ¬ run.length < limit) : drainQ limit q run st = (q, run, st) := by
  cases q with
  | nil => rfl
  | cons t rest => simp [drainQ, h]

/-- With exactly one slot free, draining starts exactly one queued task
(none when the queue is empty). -/
theorem drainQ_one (limit : Nat) (q run st : List Nat)
    (h : run.length + 1 = limit) :
    (drainQ limit q run st).2.2.length = st.length + min 1 q.length := by
  cases q with
  | nil => simp [drainQ]
  | cons t rest =>
    have hlt : run.length < limit := by omega
    have hsat : ¬ (run ++ [t]).length < limit := by simp; omega
    simp [drainQ, hlt, drainQ_sat limit rest (run ++ [t]) (st ++ [t]) hsat]

/-- The inductive invariant of the pool: bounded running count,
saturation whenever tasks queue, starts are exactly the prefix of
submissions not still queued, completions are recorded verbatim, and the
started tasks are split between running and done. -/
def PoolInv (limit : Nat) (adds : List Nat) (comps : List (Nat × Bool))
    (s : PoolState) : Prop :=
  s.running.length ≤ limit ∧
  (s.queued ≠ [] → s.running.length = limit) ∧
  s.started ++ s.queued = adds ∧
  s.done = comps ∧
  s.started.Perm (s.running ++ s.done.map Prod.fst)

/-- The invariant holds initially. -/
theorem poolInv_init (limit : Nat) : PoolInv limit [] [] poolInit := by
  refine ⟨by simp [poolInit], by simp [poolInit], ?_, rfl, by simp [poolInit]⟩
  simp [poolInit]

/-- One valid step preserves the invariant. -/
theorem poolInv_step (limit : Nat) (adds : List Nat)
    (comps : List (Nat × Bool)) (s : PoolState) (e : PoolEv)
    (hinv : PoolInv limit adds comps s) :
    (∀ id ok, e = .complete id ok → id ∈ s.running) →
    PoolInv limit (adds ++ addsOf [e]) (comps ++ compsOf [e])
      (poolStep limit s e) := by
  obtain ⟨h1, h2, h3, h4, h5⟩ := hinv
  intro hcomp
  cases e with
  | add id =>
    obtain ⟨mv, hq, hr, hst⟩ :=
      drainQ_spec limit (s.queued ++ [id]) s.running s.started
    refine ⟨?_, ?_, ?_, ?_, ?_⟩
    · simpa [poolStep, drain] using
        drainQ_le limit (s.queued ++ [id]) s.running s.started h1
    · intro hne
      simp only [poolStep, drain] at hne ⊢
      exact drainQ_full limit (s.queued ++ [id]) s.running s.started h1 hne
    · simp only [poolStep, drain, hst]
      have he : (s.started ++ mv) ++
          (drainQ limit (s.queued ++ [id]) s.running s.started).1
          = s.started ++ (s.queued ++ [id]) := by
        rw [List.append_assoc, ← hq]
      rw [he, ← List.append_assoc, h3]
      simp [addsOf]
    · simp [poolStep, drain, h4, compsOf]
    · simp only [poolStep, drain, hst, hr]
      rw [List.perm_iff_count] at h5 ⊢
      intro a
      have := h5 a
      simp only [List.count_append] at this ⊢
      omega
  | complete id ok =>
    have hid : id ∈ s.running := hcomp id ok rfl
    have hlen : (s.running.erase id).length ≤ limit := by
      have := List.length_erase_of_mem hid
      omega
    have hstep : poolStep limit s (.complete id ok) =
        drain limit
          { s with
            running := s.running.erase id
            done := s.done ++ [(id, ok)] } := by
      simp [poolStep, hid]
    obtain ⟨mv, hq, hr, hst⟩ :=
      drainQ_spec limit s.queued (s.running.erase id) s.started
    refine ⟨?_, ?_, ?_, ?_, ?_⟩
    · rw [hstep]
      simpa [drain] using
        drainQ_le limit s.queued (s.running.erase id) s.started hlen
    · intro hne
      rw [hstep] at hne ⊢
      simp only [drain] at hne ⊢
      exact drainQ_full limit s.queued (s.running.erase id) s.started hlen hne
    · rw [hstep]
      simp only [drain, hst]
      have he : (s.started ++ mv) ++
          (drainQ limit s.queued (s.running.erase id) s.started).1
          = s.started ++ s.queued := by
        rw [List.append_assoc, ← hq]
      rw [he, h3]
      simp [addsOf]
    · rw [hstep]
      simp [drain, h4, compsOf]
    · rw [hstep]
      simp only [drain, hst, hr]
      rw [List.perm_iff_count] at h5 ⊢
      intro a
      have hc := h5 a
      have hcnt : 0 < s.running.count id := List.count_pos_iff.mpr hid
      have herase : (s.running.erase id).count a =
          s.running.count a - if id = a then 1 else 0 := by
        rw [List.count_erase]
        simp [beq_iff_eq]
      simp only [List.count_append, List.map_append, List.map_cons,
        List.map_nil, herase] at hc ⊢
      by_cases h : a = id
      · subst h
        have hif : (if a = a then 1 else 0) = 1 := if_pos rfl
        have hone : List.count a [a] = 1 := by simp
        simp only [hif, hone] at *
        omega
      · have hz : List.count a [id] = 0 := by
          simp [List.count_cons, h]
        have hif : (if id = a then 1 else 0) = 0 :=
          if_neg (fun hh => h hh.symm)
        simp only [hz, hif] at *
        omega

/-- Validity of a concatenated trace splits at the intermediate state. -/
theorem poolValidGo_append (limit : Nat) :
    ∀ (l1 l2 : List PoolEv) (s : PoolState),
      poolValidGo limit s (l1 ++ l2) = true ↔
        (poolValidGo limit s l1 = true ∧
          poolValidGo limit (List.foldl (poolStep limit) s l1) l2 = true) := by
  intro l1
  induction l1 with
  | nil => intro l2 s; simp [poolValidGo]
  | cons e l1' ih =>
    intro l2 s
    cases e with
    | add id =>
      simp only [List.cons_append, poolValidGo, List.foldl_cons,
        Bool.and_eq_true, List.append_eq]
      rw [ih]
      tauto
    | complete id ok =>
      simp only [List.cons_append, poolValidGo, List.foldl_cons,
        Bool.and_eq_true, List.append_eq]
      rw [ih]
      tauto

/-- A valid trace preserves the invariant along the fold. -/
theorem poolValidGo_inv (limit : Nat) :
    ∀ (evs : List PoolEv) (s : PoolState) (adds : List Nat)
      (comps : List (Nat × Bool)),
      poolValidGo limit s evs = true → PoolInv limit adds comps s →
      PoolInv limit (adds ++ addsOf evs) (comps ++ compsOf evs)
        (List.foldl (poolStep limit) s evs) := by
  intro evs
  induction evs with
  | nil => intro s adds comps _ h; simpa [addsOf, compsOf] using h
  | cons e r ih =>
    intro s adds comps hv hinv
    have hstep : PoolInv limit (adds ++ addsOf [e]) (comps ++ compsOf [e])
        (poolStep limit s e) := by
      refine poolInv_step limit adds comps s e hinv ?_
      intro id ok he
      subst he
      simp only [poolValidGo, Bool.and_eq_true] at hv
      simpa using hv.1
    have hv' : poolValidGo limit (poolStep limit s e) r = true := by
      cases e <;> simp only [poolValidGo, Bool.and_eq_true] at hv <;>
        exact hv.2
    have := ih (poolStep limit s e) (adds ++ addsOf [e])
      (comps ++ compsOf [e]) hv' hstep
    simp only [List.foldl_cons]
    cases e <;>
      simpa [addsOf, compsOf, List.append_assoc] using this

/-- The invariant at the end of a valid trace. -/
theorem runPool_inv (limit : Nat) (evs : List PoolEv)
    (hv : poolValid limit evs = true) :
    PoolInv limit (addsOf evs) (compsOf evs) (runPool limit evs) := by
  have := poolValidGo_inv limit evs poolInit [] [] hv (poolInv_init limit)
  simpa [runPool] using this

/-- The invariant at every prefix of a valid trace. -/
theorem runPool_inv_take (limit : Nat) (evs : List PoolEv) (k : Nat)
    (hv : poolValid limit evs = true) :
    PoolInv limit (addsOf (evs.take k)) (compsOf (evs.take k))
      (runPool limit (evs.take k)) := by
  have hsplit := (poolValidGo_append limit (evs.take k) (evs.drop k)
    poolInit).mp (by rwa [List.take_append_drop])
  have := poolValidGo_inv limit (evs.take k) poolInit [] [] hsplit.1
    (poolInv_init limit)
  simpa [runPool] using this

/-- Membership in the completion records of a trace. -/
theorem compsOf_mem (evs : List PoolEv) (id : Nat) (ok : Bool) :
    (id, ok) ∈ compsOf evs ↔ PoolEv.complete id ok ∈ evs := by
  induction evs with
  | nil => simp [compsOf]
  | cons e r ih =>
    cases e with
    | add i =>
      have he : compsOf (.add i :: r) = compsOf r := by
        simp [compsOf, List.filterMap_cons]
      rw [he, ih]
      simp
    | complete i okk =>
      have he : compsOf (.complete i okk :: r) = (i, okk) :: compsOf r := by
        simp [compsOf, List.filterMap_cons]
      rw [he]
      simp [List.mem_cons, ih, Prod.ext_iff]

/-- Rewrite only the recorded success flags of a pool state. -/
def mapDone (f : Nat → Bool) (s : PoolState) : PoolState :=
  { s with done := s.done.map (fun e => (e.1, f e.1)) }

/-- One step of the pool is oblivious to success flags: scheduling state
is unchanged and only the recorded flag differs. -/
theorem poolStep_mapDone (limit : Nat) (f : Nat → Bool) (s : PoolState)
    (e : PoolEv) :
    poolStep limit (mapDone f s)
      (match e with
        | .complete id _ => .complete id (f id)
        | e => e) =
    mapDone f (poolStep limit s e) := by
  cases e with
  | add id =>
    simp only [poolStep, mapDone, drain]
  | complete id ok =>
    by_cases h : id ∈ s.running
    · simp only [poolStep, mapDone, drain, h, if_true, List.map_append,
        List.map_cons, List.map_nil]
    · simp only [poolStep, mapDone, drain, h, if_false]

/-- Folded version of flag obliviousness. -/
theorem runPool_mapFlags (limit : Nat) (f : Nat → Bool) :
    ∀ (evs : List PoolEv) (s : PoolState),
      List.foldl (poolStep limit) (mapDone f s) (mapFlags f evs) =
        mapDone f (List.foldl (poolStep limit) s evs) := by
  intro evs
  induction evs with
  | nil => intro s; rfl
  | cons e r ih =>
    intro s
    simp only [mapFlags, List.map_cons, List.foldl_cons]
    rw [poolStep_mapDone limit f s e]
    have := ih (poolStep limit s e)
    simpa [mapFlags] using this

/-- In a valid drained run with a positive bound, every submitted task has
completed once nothing is left running. -/
theorem pool_all_done (limit : Nat) (evs : List PoolEv) (hl : 1 ≤ limit)
    (hv : poolValid limit evs = true)
    (hrun : (runPool limit evs).running = []) :
    ∀ id, id ∈ addsOf evs → id ∈ (runPool limit evs).done.map Prod.fst := by
  obtain ⟨i1, i2, i3, i4, i5⟩ := runPool_inv limit evs hv
  have hq : (runPool limit evs).queued = [] := by
    by_contra hne
    have := i2 hne
    rw [hrun] at this
    simp at this
    omega
  intro id hid
  have hst : id ∈ (runPool limit evs).started := by
    rw [← i3, hq] at hid
    simpa using hid
  have := i5.mem_iff.mp hst
  rw [hrun] at this
  simpa using this

/-- C2 — a task's failure is invisible to the pool's scheduling: running
the same valid trace with any assignment of success flags leaves the
queue, the running set and the start order identical (only the recorded
flags differ); every submitted task still completes once the pool drains;
and a failure is reported exactly as the completion record of the one
task that failed. -/
theorem pool_failure_isolation (limit : Nat) (evs : List PoolEv)
    (f : Nat → Bool) (hl : 1 ≤ limit) (hv : poolValid limit evs = true) :
    ((runPool limit (mapFlags f evs)).queued = (runPool limit evs).queued ∧
     (runPool limit (mapFlags f evs)).running = (runPool limit evs).running ∧
     (runPool limit (mapFlags f evs)).started = (runPool limit evs).started ∧
     (runPool limit (mapFlags f evs)).done =
       (runPool limit evs).done.map (fun e => (e.1, f e.1))) ∧
    ((runPool limit evs).running = [] →
      ∀ id, id ∈ addsOf evs →
        id ∈ (runPool limit evs).done.map Prod.fst) ∧
    (∀ id ok, (id, ok) ∈ (runPool limit evs).done ↔
      PoolEv.complete id ok ∈ evs) := by
  have hmap : runPool limit (mapFlags f evs) = mapDone f (runPool limit evs) := by
    have := runPool_mapFlags limit f evs poolInit
    simpa [runPool, mapDone, poolInit] using this
  refine ⟨⟨?_, ?_, ?_, ?_⟩, ?_, ?_⟩
  · rw [hmap]; rfl
  · rw [hmap]; rfl
  · rw [hmap]; rfl
  · rw [hmap]; rfl
  · exact pool_all_done limit evs hl hv
  · intro id ok
    have i4 := (runPool_inv limit evs hv).2.2.2.1
    rw [i4]
    exact compsOf_mem evs id ok

/-- Witness for C2: a concrete valid trace with bound 2, five eager
submissions and a failing task. -/
theorem pool_failure_isolation_witness :
    ((runPool 2 (mapFlags (fun id => id ≠ 2)
        [.add 0, .add 1, .add 2, .add 3, .add 4,
         .complete 0 true, .complete 1 true, .complete 2 true,
         .complete 3 true, .complete 4 true])).started =
      (runPool 2
        [.add 0, .add 1, .add 2, .add 3, .add 4,
         .complete 0 true, .complete 1 true, .complete 2 true,
         .complete 3 true, .complete 4 true]).started) ∧
    (∀ id, id ∈ addsOf
        [.add 0, .add 1, .add 2, .add 3, .add 4,
         .complete 0 true, .complete 1 true, .complete 2 true,
         .complete 3 true, .complete 4 true] →
      id ∈ (runPool 2
        [.add 0, .add 1, .add 2, .add 3, .add 4,
         .complete 0 true, .complete 1 true, .complete 2 true,
         .complete 3 true, .complete 4 true]).done.map Prod.fst) :=
  ⟨(pool_failure_isolation 2 _ (fun id => id ≠ 2) (by decide)
      (by decide)).1.2.2.1,
    fun id hid => (pool_failure_isolation 2 _ (fun id => id ≠ 2) (by decide)
      (by decide)).2.1 (by decide) id hid⟩

/-- Completing a running task starts exactly one queued task (none when
the queue is empty). -/
theorem poolStep_complete_one (limit : Nat) (adds : List Nat)
    (comps : List (Nat × Bool)) (s : PoolState) (id : Nat) (ok : Bool)
    (hinv : PoolInv limit adds comps s) (hl : 1 ≤ limit)
    (hid : id ∈ s.running) :
    (poolStep limit s (.complete id ok)).started.length =
      s.started.length + min 1 s.queued.length := by
  obtain ⟨i1, i2, i3, i4, i5⟩ := hinv
  have hstep : poolStep limit s (.complete id ok) =
      drain limit
        { s with
          running := s.running.erase id
          done := s.done ++ [(id, ok)] } := by
    simp [poolStep, hid]
  rw [hstep]
  simp only [drain]
  cases hq : s.queued with
  | nil => simp [drainQ, hq]
  | cons t rest =>
    have hfull : s.running.length = limit := i2 (by rw [hq]; simp)
    have hlen : (s.running.erase id).length + 1 = limit := by
      have := List.length_erase_of_mem hid
      have hpos : 1 ≤ s.running.length := by
        cases hr : s.running with
        | nil => rw [hr] at hid; simp at hid
        | cons a b => simp [hr]
      omega
    exact drainQ_one limit (t :: rest) (s.running.erase id) s.started hlen

/-- C6 — pool safety and liveness: on every valid trace with bound
`limit ≥ 1`, at most `limit` tasks run at any instant; tasks start in FIFO
submission order; a completion starts exactly one queued task (none when
the queue is empty); a task's `add` resolution — its `done` record —
exists exactly when its completion occurred; and once nothing is left
running every submitted task has completed. -/
theorem pool_bound_fifo_completion (limit : Nat) (evs : List PoolEv)
    (hl : 1 ≤ limit) (hv : poolValid limit evs = true) :
    (∀ k, (runPool limit (evs.take k)).running.length ≤ limit) ∧
    (runPool limit evs).started =
      (addsOf evs).take (runPool limit evs).started.length ∧
    (∀ k id ok, evs.get? k = some (.complete id ok) →
      (runPool limit (evs.take (k + 1))).started.length =
        (runPool limit (evs.take k)).started.length +
          min 1 (runPool limit (evs.take k)).queued.length) ∧
    (∀ id, id ∈ (runPool limit evs).done.map Prod.fst ↔
      ∃ ok, PoolEv.complete id ok ∈ evs) ∧
    ((runPool limit evs).running = [] →
      ∀ id, id ∈ addsOf evs →
        id ∈ (runPool limit evs).done.map Prod.fst) := by
  refine ⟨?_, ?_, ?_, ?_, ?_⟩
  · intro k
    exact (runPool_inv_take limit evs k hv).1
  · have i3 := (runPool_inv limit evs hv).2.2.1
    rw [← i3]
    exact (List.take_left _ _).symm
  · intro k id ok hk
    obtain ⟨hlt, hget⟩ := List.get?_eq_some.mp hk
    have hdrop : evs.drop k = PoolEv.complete id ok :: evs.drop (k + 1) := by
      rw [List.drop_eq_get_cons hlt, hget]
    have hsplit := (poolValidGo_append limit (evs.take k) (evs.drop k)
      poolInit).mp (by rwa [List.take_append_drop])
    have hvd := hsplit.2
    rw [hdrop] at hvd
    simp only [poolValidGo, Bool.and_eq_true] at hvd
    have hid : id ∈ (runPool limit (evs.take k)).running := by
      have := hvd.1
      simpa [runPool] using this
    have htake : evs.take (k + 1) = evs.take k ++ [PoolEv.complete id ok] := by
      have hk2 : evs[k]? = some (PoolEv.complete id ok) := by
        rw [← List.get?_eq_getElem?]
        exact hk
      rw [List.take_succ, hk2]
      rfl
    have hrun : runPool limit (evs.take (k + 1)) =
        poolStep limit (runPool limit (evs.take k)) (.complete id ok) := by
      rw [htake]
      simp [runPool, List.foldl_append]
    rw [hrun]
    exact poolStep_complete_one limit _ _ _ id ok
      (runPool_inv_take limit evs k hv) hl hid
  · intro id
    have i4 := (runPool_inv limit evs hv).2.2.2.1
    rw [i4]
    constructor
    · intro h
      obtain ⟨p, hp, hfst⟩ := List.mem_map.mp h
      exact ⟨p.2, (compsOf_mem evs id p.2).mp (by
        have : p = (id, p.2) := by
          cases p
          simp at hfst
          simp [hfst]
        rwa [this] at hp)⟩
    · intro ⟨ok, hok⟩
      exact List.mem_map.mpr ⟨(id, ok), (compsOf_mem evs id ok).mpr hok, rfl⟩
  · exact pool_all_done limit evs hl hv

/-- Witness for C6: bound 2, five eager submissions, then completions. -/
theorem pool_bound_fifo_completion_witness :
    (∀ k, (runPool 2 (List.take k
        [.add 0, .add 1, .add 2, .add 3, .add 4,
         .complete 1 true, .complete 0 false, .complete 2 true,
         .complete 3 true, .complete 4 true])).running.length ≤ 2) ∧
    (runPool 2
        [.add 0, .add 1, .add 2, .add 3, .add 4,
         .complete 1 true, .complete 0 false, .complete 2 true,
         .complete 3 true, .complete 4 true]).started =
      (addsOf
        [.add 0, .add 1, .add 2, .add 3, .add 4,
         .complete 1 true, .complete 0 false, .complete 2 true,
         .complete 3 true, .complete 4 true]).take
        (runPool 2
          [.add 0, .add 1, .add 2, .add 3, .add 4,
           .complete 1 true, .complete 0 false, .complete 2 true,
           .complete 3 true, .complete 4 true]).started.length :=
  ⟨(pool_bound_fifo_completion 2 _ (by decide) (by decide)).1,
    (pool_bound_fifo_completion 2 _ (by decide) (by decide)).2.1⟩

/-! ### Lemmas about the feed normalizer -/

/-- `filterMap` keeps the whole list when the function succeeds
everywhere. -/
theorem filterMap_length_all {A B : Type} (f : A → Option B) :
    ∀ (l : List A), (∀ x, x ∈ l → (f x).isSome) →
      (l.filterMap f).length = l.length := by
  intro l
  induction l with
  | nil => intro _; rfl
  | cons a r ih =>
    intro h
    have ha := h a (List.mem_cons_self a r)
    obtain ⟨b, hb⟩ := Option.isSome_iff_exists.mp ha
    simp only [List.filterMap_cons, hb, List.length_cons]
    rw [ih (fun x hx => h x (List.mem_cons_of_mem a hx))]

/-- An Atom document with one entry that has a title but no link. -/
def atomDocNoLink : XDoc :=
  [.elem "feed" [] [.elem "entry" [] [.elem "title" [] [.txt "T"]]]]

/-- An Atom document with two complete entries. -/
def atomDocGood : XDoc :=
  [.elem "feed" []
    [.elem "entry" []
      [.elem "title" [] [.txt "T1"],
       .elem "link" [("rel", "alternate"), ("href", "http://x/1")] [],
       .elem "published" [] [.txt "2020-01-01"]],
     .elem "entry" []
      [.elem "title" [] [.txt "T2"],
       .elem "link" [("href", "http://x/2")] []]]]

/-- C7 counterexample — an Atom document with N = 1 entry (title present,
link absent) and `maxPosts = 2` yields 0 records, not `min 1 2 = 1`: a
record with no resolvable link is dropped. -/
theorem atom_normalize_cex :
    (atomEntries atomDocNoLink).length = 1 ∧
    (parseFeedPure 2 (fun _ => "") atomDocNoLink).length = 0 ∧
    (parseFeedPure 2 (fun _ => "") atomDocNoLink).length ≠
      min (atomEntries atomDocNoLink).length 2 := by
  refine ⟨rfl, rfl, by decide⟩

/-- C7 (amended) — on an Atom document, `normalize` returns exactly the
records of the first `min(N, M)` entries whose extracted title and link
are non-empty, in document order; hence at most `min(N, M)` records, each
with non-empty title and link, and exactly `min(N, M)` when every one of
the first `min(N, M)` entries extracts. -/
theorem atom_normalize_shape (maxPosts : Nat) (fmt : String → String)
    (doc : XDoc) (hAtom : atomEntries doc ≠ []) :
    parseFeedPure maxPosts fmt doc =
      ((atomEntries doc).take maxPosts).filterMap (entryRecordAtom fmt) ∧
    (parseFeedPure maxPosts fmt doc).length ≤
      min (atomEntries doc).length maxPosts ∧
    (∀ p, p ∈ parseFeedPure maxPosts fmt doc →
      p.title ≠ "" ∧ p.link ≠ "") ∧
    ((∀ e, e ∈ (atomEntries doc).take maxPosts →
        (entryRecordAtom fmt e).isSome) →
      (parseFeedPure maxPosts fmt doc).length =
        min (atomEntries doc).length maxPosts) := by
  have hlen : (atomEntries doc).length ≠ 0 := by
    simpa [List.length_eq_zero] using hAtom
  have hform : parseFeedPure maxPosts fmt doc =
      ((atomEntries doc).take maxPosts).filterMap (entryRecordAtom fmt) := by
    simp [parseFeedPure, hlen]
  refine ⟨hform, ?_, ?_, ?_⟩
  · rw [hform]
    calc (((atomEntries doc).take maxPosts).filterMap
          (entryRecordAtom fmt)).length
        ≤ ((atomEntries doc).take maxPosts).length :=
          List.length_filterMap_le _ _
      _ = min (atomEntries doc).length maxPosts := by
          rw [List.length_take, Nat.min_comm]
  · intro p hp
    rw [hform] at hp
    obtain ⟨e, _, he⟩ := List.mem_filterMap.mp hp
    simp only [entryRecordAtom] at he
    by_cases hc : (decide ¬firstText (findDesc "title" e) = "" &&
        optTruthy (if optTruthy (((findDesc "link" e).filter
            (fun n => attrOf "rel" n = some "alternate")).head?.bind
              (attrOf "href"))
          then ((findDesc "link" e).filter
            (fun n => attrOf "rel" n = some "alternate")).head?.bind
              (attrOf "href")
          else (findDesc "link" e).head?.bind (attrOf "href"))) = true
    · rw [if_pos hc] at he
      have hc2 := hc
      simp only [Bool.and_eq_true] at hc2
      obtain ⟨ht, hlink⟩ := hc2
      cases he
      refine ⟨by simpa using ht, ?_⟩
      revert hlink
      cases ((findDesc "link" e).filter
          (fun n => attrOf "rel" n = some "alternate")).head?.bind
            (attrOf "href") with
      | none =>
        cases (findDesc "link" e).head?.bind (attrOf "href") with
        | none => intro h; simp [optTruthy] at h
        | some s => intro h; simpa [optTruthy] using h
      | some s =>
        by_cases hs : s = ""
        · subst hs
          cases (findDesc "link" e).head?.bind (attrOf "href") with
          | none => intro h; simp [optTruthy] at h
          | some u => intro h; simpa [optTruthy] using h
        · intro _
          simpa [optTruthy, hs] using hs
    · rw [if_neg hc] at he
      cases he
  · intro hall
    rw [hform, filterMap_length_all _ _ hall, List.length_take,
      Nat.min_comm]

/-- Witness for C7's amended theorem on a two-entry Atom document. -/
theorem atom_normalize_shape_witness :
    (parseFeedPure 2 (fun _ => "") atomDocGood).length =
      min (atomEntries atomDocGood).length 2 :=
  (atom_normalize_shape 2 (fun _ => "") atomDocGood
    (by
      intro h
      exact absurd (List.length_eq_zero.mpr h) (by decide))).2.2.2
    (by decide)

/-! ### Lemmas about `processIssue` -/

/-- The directive value written back by `processIssue`, given the parsed
directive `v`: `posts` is attached exactly when the `feed` key is truthy.
-/
def piData (maxPosts : Nat) (fmt : String → String)
    (oracle : Nat → Except Unit XDoc) (v : JsonVal) : JsonVal :=
  if truthy (getKey v "feed") then
    setKey v "posts" (postsToJson (parseFeedRun maxPosts fmt (oracle 0)).1)
  else v

/-- Reduction of `processIssue` once the span has been captured and
parsed: the record is always rewritten, with `posts` attached exactly when
`feed` is truthy. -/
theorem processIssue_run (maxPosts K : Nat) (fmt : String → String)
    (oracle : Nat → Except Unit XDoc) (num : Nat) (b : List Char) (p : Nat)
    (span : List Char) (v : JsonVal) (hb : b ≠ [])
    (hx : extractSpan b = some (p, span)) (hj : jsonParse span = some v) :
    (processIssue maxPosts K fmt oracle num (some b)).1 =
      some ⟨piData maxPosts fmt oracle v,
        replaceFirst b span (strVal 0 (piData maxPosts fmt oracle v))⟩ := by
  have hbe : b.isEmpty = false := by
    cases b with
    | nil => exact absurd rfl hb
    | cons c r => rfl
  by_cases ht : truthy (getKey v "feed") = true
  · simp [processIssue, hbe, hx, hj, ht, resolveFeed_first, piData]
  · rw [Bool.not_eq_true] at ht
    simp [processIssue, hbe, hx, hj, ht, piData]

/-- Finding a key in a list where an existing entry was overwritten. -/
theorem find_map_replace (k : String) (x : JsonVal) :
    ∀ es : List (String × JsonVal), es.any (fun e => e.1 = k) = true →
      (es.map (fun e => if e.1 = k then (k, x) else e)).find?
        (fun e => e.1 = k) = some (k, x) := by
  intro es
  induction es with
  | nil => intro h; simp at h
  | cons e r ih =>
    intro h
    by_cases he : e.1 = k
    · simp only [List.map_cons, if_pos he]
      exact List.find?_cons_of_pos _ (by simp)
    · have hr : r.any (fun e => e.1 = k) = true := by
        rcases List.any_eq_true.mp h with ⟨a, ha, hk⟩
        rcases List.mem_cons.mp ha with h' | h'
        · exact absurd (by rw [← h']; exact of_decide_eq_true hk) he
        · exact List.any_eq_true.mpr ⟨a, h', hk⟩
      simp only [List.map_cons, if_neg he]
      rw [List.find?_cons_of_neg _ (by simp [he])]
      exact ih hr

/-- Finding a key just inserted into the index block. -/
theorem find_insertIdx (k : String) (x : JsonVal) :
    ∀ es : List (String × JsonVal), (∀ e, e ∈ es → ¬ e.1 = k) →
      (insertIdx k x es).find? (fun e => e.1 = k) = some (k, x) := by
  intro es
  induction es with
  | nil =>
    intro _
    simp only [insertIdx]
    exact List.find?_cons_of_pos _ (by simp)
  | cons e r ih =>
    intro hnone
    cases e with
    | mk k' y =>
      have hne : ¬ k' = k := by
        have := hnone (k', y) (List.mem_cons_self _ _)
        simpa using this
      by_cases hguard : (isIdxKey k' && decide (idxVal k' < idxVal k)) = true
      · simp only [insertIdx, hguard, if_true]
        rw [List.find?_cons_of_neg _ (by simp [hne])]
        exact ih (fun e he hk => hnone e (List.mem_cons_of_mem _ he) hk)
      · simp only [insertIdx, hguard, if_false]
        exact List.find?_cons_of_pos _ (by simp)

/-- Finding a key just appended to a list of fresh keys. -/
theorem find_append_last (k : String) (x : JsonVal) :
    ∀ es : List (String × JsonVal), (∀ e, e ∈ es → ¬ e.1 = k) →
      (es ++ [(k, x)]).find? (fun e => e.1 = k) = some (k, x) := by
  intro es
  induction es with
  | nil =>
    intro _
    simp only [List.nil_append]
    exact List.find?_cons_of_pos _ (by simp)
  | cons e r ih =>
    intro hnone
    have hne : ¬ e.1 = k := hnone e (List.mem_cons_self e r)
    simp only [List.cons_append]
    rw [List.find?_cons_of_neg _ (by simp [hne])]
    exact ih (fun e he hk => hnone e (List.mem_cons_of_mem _ he) hk)

/-- A key freshly defined or overwritten is found with its new value. -/
theorem find_insertKey (k : String) (x : JsonVal)
    (es : List (String × JsonVal)) :
    (insertKey es k x).find? (fun e => e.1 = k) = some (k, x) := by
  by_cases hany : es.any (fun e => e.1 = k) = true
  · have : insertKey es k x =
        es.map (fun e => if e.1 = k then (k, x) else e) := by
      simp [insertKey, hany]
    rw [this]
    exact find_map_replace k x es hany
  · have hnone : ∀ e, e ∈ es → ¬ e.1 = k := by
      intro e he hk
      exact hany (List.any_eq_true.mpr ⟨e, he, by simp [hk]⟩)
    by_cases hidx : isIdxKey k = true
    · have : insertKey es k x = insertIdx k x es := by
        simp [insertKey, hany, hidx]
      rw [this]
      exact find_insertIdx k x es hnone
    · have : insertKey es k x = es ++ [(k, x)] := by
        simp [insertKey, hany, hidx]
      rw [this]
      exact find_append_last k x es hnone

/-- Looking up the freshly assigned key on an object. -/
theorem getKey_setKey_obj (es : List (String × JsonVal)) (k : String)
    (x : JsonVal) : getKey (setKey (.obj es) k x) k = some x := by
  simp [setKey, getKey, find_insertKey k x es]

/-- The first character pointed to by `idxOfC` is the sought character. -/
theorem idxOfC_drop (c : Char) :
    ∀ (l : List Char) (i : Nat), idxOfC c l = some i →
      ∃ r, l.drop i = c :: r := by
  intro l
  induction l with
  | nil => intro i h; simp [idxOfC] at h
  | cons d r ih =>
    intro i h
    by_cases hd : d = c
    · simp [idxOfC, hd] at h
      subst h
      exact ⟨r, by simp [hd]⟩
    · simp only [idxOfC, hd, if_false, Option.map_eq_some'] at h
      obtain ⟨j, hj, rfl⟩ := h
      simpa using ih j hj

/-- A captured span always starts with an opening brace. -/
theorem extractSpan_headBrace (b : List Char) (p : Nat) (span : List Char)
    (hx : extractSpan b = some (p, span)) : ∃ r, span = '{' :: r := by
  simp only [extractSpan] at hx
  rcases hfind : fenceFind b with _ | ⟨st, flen⟩
  · rw [hfind] at hx
    exact absurd hx (by simp)
  rw [hfind] at hx
  simp only at hx
  rcases hin : innerMatch ((b.drop st).take flen) with _ | ⟨i, l⟩
  · rw [hin] at hx
    exact absurd hx (by simp)
  rw [hin] at hx
  simp only [Option.some_inj, Prod.mk.injEq] at hx
  obtain ⟨_, hspan⟩ := hx
  simp only [innerMatch] at hin
  rcases hidx : idxOfC '{' ((b.drop st).take flen) with _ | i0
  · rw [hidx] at hin
    exact absurd hin (by simp)
  rw [hidx] at hin
  rcases hlast : lastIdxOfC '}' ((b.drop st).take flen) with _ | j0
  · rw [hlast] at hin
    exact absurd hin (by simp)
  rw [hlast] at hin
  simp only at hin
  by_cases hij : i0 < j0
  · simp only [hij, if_true, Option.some_inj, Prod.mk.injEq] at hin
    obtain ⟨hi, hl⟩ := hin
    subst hi
    obtain ⟨r, hr⟩ := idxOfC_drop '{' _ _ hidx
    rw [← hspan, hr, ← hl]
    exact ⟨r.take (j0 - i0), rfl⟩
  · rw [if_neg hij] at hin
    exact absurd hin (by simp)

/-- A value parsed from a text that opens with a brace is an object. -/
theorem jsonParse_obj (r : List Char) (v : JsonVal)
    (h : jsonParse ('{' :: r) = some v) : ∃ es, v = .obj es := by
  have hobj : ∀ (g : Nat) (s : List Char) (acc : List (String × JsonVal))
      (w : JsonVal) (rest : List Char),
      pObjLoop g s acc = some (w, rest) → ∃ es, w = .obj es := by
    intro g
    induction g with
    | zero => intro s acc w rest h; simp [pObjLoop] at h
    | succ g ih =>
      intro s acc w rest h
      simp only [pObjLoop] at h
      rcases hs : skipWs s with _ | ⟨c, rs⟩
      · rw [hs] at h
        exact absurd h (by simp)
      rw [hs] at h
      simp only at h
      by_cases hc : c = '"'
      case neg => rw [if_neg hc] at h; exact absurd h (by simp)
      rw [if_pos hc] at h
      rcases hstr : pStrL rs with _ | ⟨kl, rest1⟩
      · rw [hstr] at h
        exact absurd h (by simp)
      rw [hstr] at h
      simp only at h
      rcases hs2 : skipWs rest1 with _ | ⟨c2, r2⟩
      · rw [hs2] at h
        exact absurd h (by simp)
      rw [hs2] at h
      simp only at h
      by_cases hc2 : c2 = ':'
      case neg => rw [if_neg hc2] at h; exact absurd h (by simp)
      rw [if_pos hc2] at h
      rcases hv : pVal g r2 with _ | ⟨x, rest2⟩
      · rw [hv] at h
        exact absurd h (by simp)
      rw [hv] at h
      simp only at h
      rcases hs3 : skipWs rest2 with _ | ⟨c3, r3⟩
      · rw [hs3] at h
        exact absurd h (by simp)
      rw [hs3] at h
      simp only at h
      by_cases hc3 : c3 = ','
      · rw [if_pos hc3] at h
        exact ih _ _ _ _ h
      · rw [if_neg hc3] at h
        by_cases hc4 : c3 = '}'
        · rw [if_pos hc4] at h
          simp only [Option.some_inj] at h
          exact ⟨_, (congrArg Prod.fst h.symm : _)⟩
        · rw [if_neg hc4] at h
          exact absurd h (by simp)
  simp only [jsonParse] at h
  rcases hp : pVal (('{' :: r).length + 1) ('{' :: r) with _ | ⟨w, rest⟩
  · rw [hp] at h
    exact absurd h (by simp)
  rw [hp] at h
  simp only at h
  have hw : ∃ es, w = JsonVal.obj es := by
    simp only [pVal] at hp
    have hskip : skipWs ('{' :: r) = '{' :: r := by
      simp [skipWs, isJsonWs]
    rw [hskip] at hp
    simp only [if_pos rfl] at hp
    rcases hs : skipWs r with _ | ⟨c2, r2⟩
    · rw [hs] at hp
      exact absurd hp (by simp)
    rw [hs] at hp
    simp only at hp
    by_cases hc2 : c2 = '}'
    · rw [if_pos hc2] at hp
      injection hp with hp2
      exact ⟨[], (congrArg Prod.fst hp2).symm⟩
    · rw [if_neg hc2] at hp
      exact hobj _ _ _ _ _ hp
  obtain ⟨es, hes⟩ := hw
  by_cases hrest : skipWs rest = []
  · rw [if_pos hrest] at h
    simp only [Option.some_inj] at h
    exact ⟨es, by rw [← h]; exact hes⟩
  · rw [if_neg hrest] at h
    exact absurd h (by simp)

/-- The opening brace character. -/
def braceL : Char := Char.ofNat 123

/-- The closing brace character. -/
def braceR : Char := Char.ofNat 125

/-- A body whose fenced directive has no `feed` key. -/
def bodyNoFeed : List Char :=
  toL "```json\n" ++ [braceL] ++ toL "\"a\": 1" ++ [braceR] ++ toL "\n```"

/-- The captured span of `bodyNoFeed`. -/
def spanNoFeed : List Char := [braceL] ++ toL "\"a\": 1" ++ [braceR]

/-- C1 counterexample — a record whose directive lacks a `feed` key is
nevertheless rewritten: `processIssue` returns an update whose new body
differs from the original (the directive is re-serialized with the
standard indentation), although the parsed directive has no `feed` key.
-/
theorem no_feed_still_rewritten_cex :
    ((processIssue 2 3 (fun _ => "") (fun _ => .error ()) 1
        (some bodyNoFeed)).1.map (fun r => r.newBody)).isSome = true ∧
    ((processIssue 2 3 (fun _ => "") (fun _ => .error ()) 1
        (some bodyNoFeed)).1.map (fun r => r.newBody)) ≠ some bodyNoFeed ∧
    ((processIssue 2 3 (fun _ => "") (fun _ => .error ()) 1
        (some bodyNoFeed)).1.map (fun r => getKey r.data "feed")) =
      some none :=
  ⟨by decide, by decide, rfl⟩

/-- C1 (amended) — no partial write: whenever a directive is captured and
parsed, the record is rewritten with the re-serialized directive
substituted for the captured span, and the written directive carries the
resolved `posts` array whenever the `feed` key is truthy; when `feed` is
absent or falsy the directive is written back unchanged (only
re-serialized). -/
theorem processIssue_write_shape (maxPosts K : Nat) (fmt : String → String)
    (oracle : Nat → Except Unit XDoc) (num : Nat) (b : List Char) (p : Nat)
    (span : List Char) (v : JsonVal) (hb : b ≠ [])
    (hx : extractSpan b = some (p, span)) (hj : jsonParse span = some v) :
    (processIssue maxPosts K fmt oracle num (some b)).1 =
      some ⟨piData maxPosts fmt oracle v,
        replaceFirst b span (strVal 0 (piData maxPosts fmt oracle v))⟩ ∧
    (truthy (getKey v "feed") = true →
      getKey (piData maxPosts fmt oracle v) "posts" =
        some (postsToJson (parseFeedRun maxPosts fmt (oracle 0)).1)) ∧
    (truthy (getKey v "feed") = false →
      piData maxPosts fmt oracle v = v) := by
  refine ⟨processIssue_run maxPosts K fmt oracle num b p span v hb hx hj,
    ?_, ?_⟩
  · intro ht
    obtain ⟨rr, hspan⟩ := extractSpan_headBrace b p span hx
    rw [hspan] at hj
    obtain ⟨es, rfl⟩ := jsonParse_obj rr v hj
    simp only [piData, ht, if_true]
    exact getKey_setKey_obj es "posts" _
  · intro ht
    simp [piData, ht]

/-- Witness for C1's amended theorem on a no-feed record. -/
theorem processIssue_write_shape_witness :
    (processIssue 2 3 (fun _ => "") (fun _ => .error ()) 1
        (some bodyNoFeed)).1 =
      some ⟨piData 2 (fun _ => "") (fun _ => .error ())
          (.obj [("a", .num "1")]),
        replaceFirst bodyNoFeed spanNoFeed
          (strVal 0 (piData 2 (fun _ => "") (fun _ => .error ())
            (.obj [("a", .num "1")])))⟩ :=
  (processIssue_write_shape 2 3 (fun _ => "") (fun _ => .error ()) 1
    bodyNoFeed 8 spanNoFeed (.obj [("a", .num "1")]) (by decide)
    (by decide) rfl).1

/-- A body with no fenced block at all. -/
def bodyNoBlock : List Char := toL "hello"

/-- A body whose fenced block holds invalid JSON. -/
def bodyBadJson : List Char :=
  toL "```json " ++ [braceL] ++ toL "oops" ++ [braceR] ++ toL " ```"

/-- The captured (invalid) span of `bodyBadJson`. -/
def spanBadJson : List Char := [braceL] ++ toL "oops" ++ [braceR]

/-- C8 — a record with no fenced block, or with invalid JSON inside its
fenced block, is skipped: the result is `null` (no update is produced, so
the original text is never modified), and the failure is reported through
the logging collaborator; being a return value rather than an exception, it
cannot abort the processing of other records. -/
theorem directive_missing_or_malformed (maxPosts K : Nat)
    (fmt : String → String) (oracle : Nat → Except Unit XDoc) (num : Nat)
    (b : List Char) (hb : b ≠ []) :
    (extractSpan b = none →
      (processIssue maxPosts K fmt oracle num (some b)).1 = none ∧
      LogEv.warn ("No JSON content found in issue #" ++ toString num) ∈
        (processIssue maxPosts K fmt oracle num (some b)).2) ∧
    (∀ (p : Nat) (span : List Char), extractSpan b = some (p, span) →
      jsonParse span = none →
      (processIssue maxPosts K fmt oracle num (some b)).1 = none ∧
      LogEv.err ("Error processing issue #" ++ toString num) ∈
        (processIssue maxPosts K fmt oracle num (some b)).2) := by
  have hbe : b.isEmpty = false := by
    cases b with
    | nil => exact absurd rfl hb
    | cons c r => rfl
  constructor
  · intro hx
    constructor <;> simp [processIssue, hbe, hx]
  · intro p span hx hj
    constructor <;> simp [processIssue, hbe, hx, hj]

/-- Witness for C8 on a block-free body and on a malformed block. -/
theorem directive_missing_or_malformed_witness :
    (processIssue 2 3 (fun _ => "") (fun _ => .error ()) 7
        (some bodyNoBlock)).1 = none ∧
    (processIssue 2 3 (fun _ => "") (fun _ => .error ()) 7
        (some bodyBadJson)).1 = none :=
  ⟨((directive_missing_or_malformed 2 3 (fun _ => "") (fun _ => .error ())
      7 bodyNoBlock (by decide)).1 (by decide)).1,
    ((directive_missing_or_malformed 2 3 (fun _ => "") (fun _ => .error ())
      7 bodyBadJson (by decide)).2 8 spanBadJson (by decide) rfl).1⟩

/-- The duplicated span used to refute the frame property. -/
def spanDup : List Char := [braceL] ++ toL "\"a\":1" ++ [braceR]

/-- A body whose captured span also occurs verbatim before the fence. -/
def bodyDup : List Char :=
  spanDup ++ toL "\n```json\n" ++ spanDup ++ toL "\n```"

/-- C5 counterexample — when the captured span's text also occurs earlier
in the body, `String.replace` substitutes that earlier first occurrence:
bytes outside the originally captured span (at position 16) change, and
the captured span itself stays untouched. -/
theorem replace_outside_span_cex :
    extractSpan bodyDup = some (16, spanDup) ∧
    ((processIssue 2 3 (fun _ => "") (fun _ => .error ()) 1
        (some bodyDup)).1.map (fun r => r.newBody.take 16)).isSome = true ∧
    ((processIssue 2 3 (fun _ => "") (fun _ => .error ()) 1
        (some bodyDup)).1.map (fun r => r.newBody.take 16)) ≠
      some (bodyDup.take 16) :=
  ⟨by decide, by decide, by decide⟩

/-- `$`-expansion is the identity on replacement text without dollars. -/
theorem applyDollar_id (matched pre post : List Char) :
    ∀ l : List Char, ¬ '$' ∈ l → applyDollar matched pre post l = l := by
  intro l
  induction l with
  | nil => intro _; rfl
  | cons c r ih =>
    intro h
    simp only [List.mem_cons, not_or] at h
    obtain ⟨h1, h2⟩ := h
    have hc : ¬ c = '$' := fun hh => h1 hh.symm
    rw [applyDollar.eq_def]
    simp only [hc, if_false]
    rw [ih h2]

/-- C5 (amended) — when the captured span's first occurrence in the body
is the captured span itself, replacement only touches that span: the new
body is the old prefix, the `$`-expanded serialized directive, and the old
suffix — and the serialized directive verbatim whenever it contains no
dollar sign.  Every byte outside the span is unchanged. -/
theorem replace_frame_property (maxPosts K : Nat) (fmt : String → String)
    (oracle : Nat → Except Unit XDoc) (num : Nat) (b : List Char) (p : Nat)
    (span : List Char) (v : JsonVal) (hb : b ≠ [])
    (hx : extractSpan b = some (p, span)) (hj : jsonParse span = some v)
    (hfirst : subIdx span b = some p) :
    (processIssue maxPosts K fmt oracle num (some b)).1 =
      some ⟨piData maxPosts fmt oracle v,
        b.take p ++
          applyDollar span (b.take p) (b.drop (p + span.length))
            (strVal 0 (piData maxPosts fmt oracle v)) ++
          b.drop (p + span.length)⟩ ∧
    (¬ '$' ∈ strVal 0 (piData maxPosts fmt oracle v) →
      (processIssue maxPosts K fmt oracle num (some b)).1 =
        some ⟨piData maxPosts fmt oracle v,
          b.take p ++ strVal 0 (piData maxPosts fmt oracle v) ++
            b.drop (p + span.length)⟩) := by
  have hrun := processIssue_run maxPosts K fmt oracle num b p span v hb hx hj
  have hrepl : replaceFirst b span (strVal 0 (piData maxPosts fmt oracle v)) =
      b.take p ++
        applyDollar span (b.take p) (b.drop (p + span.length))
          (strVal 0 (piData maxPosts fmt oracle v)) ++
        b.drop (p + span.length) := by
    simp [replaceFirst, hfirst]
  constructor
  · rw [hrun, hrepl]
  · intro hd
    rw [hrun, hrepl,
      applyDollar_id span (b.take p) (b.drop (p + span.length)) _ hd]

/-- Witness for C5's amended theorem: a body whose span occurs once. -/
theorem replace_frame_property_witness :
    (processIssue 2 3 (fun _ => "") (fun _ => .error ()) 1
        (some bodyNoFeed)).1 =
      some ⟨piData 2 (fun _ => "") (fun _ => .error ())
          (.obj [("a", .num "1")]),
        bodyNoFeed.take 8 ++
          strVal 0 (piData 2 (fun _ => "") (fun _ => .error ())
            (.obj [("a", .num "1")])) ++
          bodyNoFeed.drop (8 + spanNoFeed.length)⟩ :=
  (replace_frame_property 2 3 (fun _ => "") (fun _ => .error ()) 1
    bodyNoFeed 8 spanNoFeed (.obj [("a", .num "1")]) (by decide)
    (by decide) rfl (by decide)).2 (by decide)

/-! ### The printer–parser round trip

`JSON.stringify(v, null, 2)` output re-parses to the same value for
well-formed values.  The proof is by strong induction on a size measure,
with loop lemmas for the array and object member grammars. -/

mutual

/-- Fuel measure of a value for the parser. -/
def jsize : JsonVal → Nat
  | .null => 1
  | .bool _ => 1
  | .num _ => 1
  | .str _ => 1
  | .arr xs => 1 + jsizeL xs
  | .obj es => 1 + jsizeE es

/-- Fuel measure of an item list. -/
def jsizeL : List JsonVal → Nat
  | [] => 1
  | x :: xs => 1 + jsize x + jsizeL xs

/-- Fuel measure of a field list. -/
def jsizeE : List (String × JsonVal) → Nat
  | [] => 1
  | e :: es => 1 + jsize e.2 + jsizeE es

end

/-- The character after a printed value must not extend a number token. -/
def numStop : List Char → Bool
  | [] => true
  | c :: _ => !isNumC c

/-- Values have positive size. -/
theorem jsize_pos : ∀ v, 1 ≤ jsize v := by
  intro v
  cases v <;> simp [jsize]

/-- Member size bound for arrays. -/
theorem jsize_mem_arr : ∀ (xs : List JsonVal) (x : JsonVal), x ∈ xs →
    jsize x < jsizeL xs := by
  intro xs
  induction xs with
  | nil => intro x h; simp at h
  | cons y ys ih =>
    intro x h
    rcases List.mem_cons.mp h with h | h
    · subst h; simp [jsizeL]; omega
    · have := ih x h
      simp [jsizeL]
      omega

/-- Member size bound for objects. -/
theorem jsize_mem_obj : ∀ (es : List (String × JsonVal))
    (e : String × JsonVal), e ∈ es → jsize e.2 < jsizeE es := by
  intro es
  induction es with
  | nil => intro e h; simp at h
  | cons f fs ih =>
    intro e h
    rcases List.mem_cons.mp h with h | h
    · subst h; simp [jsizeE]; omega
    · have := ih e h
      simp [jsizeE]
      omega

/-- Well-formedness of every array member. -/
theorem jsonWFL_mem : ∀ (xs : List JsonVal) (x : JsonVal), x ∈ xs →
    jsonWFL xs → jsonWF x := by
  intro xs
  induction xs with
  | nil => intro x h; simp at h
  | cons y ys ih =>
    intro x h hw
    rw [jsonWFL] at hw
    rcases List.mem_cons.mp h with h | h
    · subst h; exact hw.1
    · exact ih x h hw.2

/-- Well-formedness of every field value. -/
theorem jsonWFE_mem : ∀ (es : List (String × JsonVal))
    (e : String × JsonVal), e ∈ es → jsonWFE es → jsonWF e.2 := by
  intro es
  induction es with
  | nil => intro e h; simp at h
  | cons f fs ih =>
    intro e h hw
    rw [jsonWFE] at hw
    rcases List.mem_cons.mp h with h | h
    · subst h; exact hw.1
    · exact ih e h hw.2

/-- Json whitespace skipping ignores a whitespace prefix. -/
theorem skipWs_append (w t : List Char)
    (h : ∀ c, c ∈ w → isJsonWs c = true) : skipWs (w ++ t) = skipWs t := by
  induction w with
  | nil => rfl
  | cons c r ih =>
    simp only [List.cons_append, skipWs, h c (List.mem_cons_self c r),
      if_true]
    exact ih (fun c hc => h c (List.mem_cons_of_mem _ hc))

/-- Json whitespace skipping stops at a non-whitespace head. -/
theorem skipWs_cons (c : Char) (t : List Char) (h : isJsonWs c = false) :
    skipWs (c :: t) = c :: t := by
  simp [skipWs, h]

/-- The indentation is whitespace. -/
theorem indChars_ws (n : Nat) : ∀ c, c ∈ indChars n → isJsonWs c = true := by
  intro c hc
  have := List.eq_of_mem_replicate hc
  subst this
  rfl

/-- `pVal` only looks at its input through `skipWs`. -/
theorem pVal_ws (f : Nat) (s1 s2 : List Char)
    (h : skipWs s1 = skipWs s2) : pVal f s1 = pVal f s2 := by
  cases f with
  | zero => rfl
  | succ g => rw [pVal, pVal, h]

/-- `pArrLoop` only looks at its input through `skipWs`. -/
theorem pArrLoop_ws (f : Nat) (s1 s2 : List Char) (acc : List JsonVal)
    (h : skipWs s1 = skipWs s2) : pArrLoop f s1 acc = pArrLoop f s2 acc := by
  cases f with
  | zero => rfl
  | succ g => rw [pArrLoop, pArrLoop, h]

/-- `pObjLoop` only looks at its input through `skipWs`. -/
theorem pObjLoop_ws (f : Nat) (s1 s2 : List Char)
    (acc : List (String × JsonVal)) (h : skipWs s1 = skipWs s2) :
    pObjLoop f s1 acc = pObjLoop f s2 acc := by
  cases f with
  | zero => rfl
  | succ g => rw [pObjLoop, pObjLoop, h]

/-- A valid number token begins with a minus sign or a digit. -/
theorem isNumC_of_digit (c : Char) (h : c.isDigit = true) :
    isNumC c = true := by
  simp [isNumC, h]

/-- `dropWhile` with a predicate every element satisfies drops
everything. -/
theorem dropWhile_all (p : Char → Bool) :
    ∀ l : List Char, l.all p = true → l.dropWhile p = [] := by
  intro l
  induction l with
  | nil => intro _; rfl
  | cons c r ih =>
    intro h
    simp only [List.all_cons, Bool.and_eq_true] at h
    rw [List.dropWhile_cons, if_pos h.1]
    exact ih h.2

/-- All-digit lists are made of number-token characters. -/
theorem all_digit_numC (l : List Char) (h : l.all Char.isDigit = true) :
    l.all isNumC = true := by
  rw [List.all_eq_true] at h ⊢
  intro x hx
  exact isNumC_of_digit x (h x hx)

/-- Canonical number lexemes satisfy the token grammar. -/
theorem numCanon_numWF (s : String) (h : numCanon s = true) :
    numWF s = true := by
  obtain ⟨l⟩ := s
  have h2 : numCanonL l = true := h
  suffices hout : (decide (l ≠ []) && l.all isNumC && numOK l) = true by
    exact hout
  clear h
  rcases l with _ | ⟨c, r⟩
  · exact absurd h2 (by decide)
  · by_cases hc : c = '-'
    · subst hc
      rcases r with _ | ⟨d, r2⟩
      · exact absurd h2 (by decide)
      · simp [numCanonL] at h2
        obtain ⟨⟨⟨hdig, hne0⟩, hall⟩, -⟩ := h2
        have hallb : r2.all Char.isDigit = true :=
          List.all_eq_true.mpr hall
        have hdw := dropWhile_all Char.isDigit r2 hallb
        simp only [Bool.and_eq_true]
        refine ⟨⟨by simp, ?_⟩, ?_⟩
        · simp only [List.all_cons, Bool.and_eq_true]
          exact ⟨by decide, isNumC_of_digit d hdig,
            all_digit_numC r2 hallb⟩
        · simp [numOK, hne0, hdig, hdw, numFrac, numExp]
    · simp [numCanonL, hc] at h2
      obtain ⟨⟨⟨hdig, hor⟩, hall⟩, -⟩ := h2
      have hallb : r.all Char.isDigit = true := List.all_eq_true.mpr hall
      have hdw := dropWhile_all Char.isDigit r hallb
      simp only [Bool.and_eq_true]
      refine ⟨⟨by simp, ?_⟩, ?_⟩
      · simp only [List.all_cons, Bool.and_eq_true]
        exact ⟨isNumC_of_digit c hdig, all_digit_numC r hallb⟩
      · by_cases hc0 : c = '0'
        · subst hc0
          have hre : r = [] := by
            rcases hor with hor | hor
            · exact hor
            · simp at hor
          subst hre
          decide
        · simp [numOK, hc, hc0, hdig, hdw, numFrac, numExp]

/-- A valid number token begins with a minus sign or a digit. -/
theorem numOK_head : ∀ (l : List Char), numOK l = true →
    ∃ c r, l = c :: r ∧ (c = '-' ∨ c.isDigit = true) := by
  intro l hok
  rcases l with _ | ⟨c0, r0⟩
  · exact absurd hok (by decide)
  refine ⟨c0, r0, rfl, ?_⟩
  by_cases hm : c0 = '-'
  · exact Or.inl hm
  · right
    rw [numOK.eq_def] at hok
    simp only [if_neg hm] at hok
    by_cases h0 : c0 = '0'
    · subst h0; decide
    · simp only [if_neg h0, Bool.and_eq_true] at hok
      exact hok.1

/-- Head shape of a printed value: a non-whitespace character that closes
no bracket and extends no token. -/
theorem strVal_head (lvl : Nat) (v : JsonVal) (hwf : jsonWF v) :
    ∃ c t, strVal lvl v = c :: t ∧ isJsonWs c = false ∧
      ¬ c = ']' ∧ ¬ c = '}' ∧ ¬ c = ',' ∧ ¬ c = ':' := by
  cases v with
  | null => exact ⟨'n', _, rfl, by decide, by decide, by decide, by decide, by decide⟩
  | bool b =>
    cases b with
    | true => exact ⟨'t', _, rfl, by decide, by decide, by decide, by decide, by decide⟩
    | false => exact ⟨'f', _, rfl, by decide, by decide, by decide, by decide, by decide⟩
  | num s =>
    rw [jsonWF] at hwf
    have hwf2 := numCanon_numWF s hwf
    simp only [numWF, Bool.and_eq_true, decide_eq_true_eq] at hwf2
    obtain ⟨⟨hne, hall⟩, hok⟩ := hwf2
    obtain ⟨c0, r0, hd, hc0⟩ := numOK_head s.data hok
    refine ⟨c0, r0, by rw [strVal, hd], ?_, ?_, ?_, ?_, ?_⟩
    · rcases hc0 with h | h
      · subst h; decide
      · by_contra hws
        rw [Bool.not_eq_false] at hws
        simp only [isJsonWs, Bool.or_eq_true, decide_eq_true_eq] at hws
        rcases hws with ((h' | h') | h') | h' <;> subst h' <;> simp at h
    all_goals
      rcases hc0 with h | h
      · subst h; decide
      · intro hh
        subst hh
        simp at h
  | str s => exact ⟨'"', _, rfl, by decide, by decide, by decide, by decide, by decide⟩
  | arr xs =>
    cases xs with
    | nil => exact ⟨'[', _, rfl, by decide, by decide, by decide, by decide, by decide⟩
    | cons x r => exact ⟨'[', _, rfl, by decide, by decide, by decide, by decide, by decide⟩
  | obj es =>
    cases es with
    | nil => exact ⟨'{', _, rfl, by decide, by decide, by decide, by decide, by decide⟩
    | cons e r => exact ⟨'{', _, rfl, by decide, by decide, by decide, by decide, by decide⟩

/-- Hex digits printed by the escaper decode to themselves. -/
theorem hexVal_hexDig (x : Nat) (hx : x < 16) : hexVal (hexDig x) = x := by
  interval_cases x <;> decide

/-- Decoding a quoted-string body inverts the escaper (with any
sufficient fuel). -/
theorem pStrLGo_esc : ∀ (l rest : List Char) (f : Nat),
    (escStr l ++ '"' :: rest).length ≤ f →
    pStrLGo f (escStr l ++ '"' :: rest) = some (l, rest) := by
  intro l
  induction l with
  | nil =>
    intro rest f hf
    simp only [escStr, List.nil_append, List.length_cons] at hf ⊢
    cases f with
    | zero => omega
    | succ g => simp [pStrLGo]
  | cons c r ih =>
    intro rest f hf
    by_cases hq : c = '"'
    · subst hq
      have hesc : escC '"' = ['\\', '"'] := by decide
      simp only [escStr, hesc, List.cons_append, List.nil_append,
        List.append_assoc, List.length_cons, List.length_append] at hf ⊢
      cases f with
      | zero => omega
      | succ g =>
        have hlen : (escStr r ++ '"' :: rest).length ≤ g := by
          simp only [List.length_append, List.length_cons]
          omega
        simp [pStrLGo, ih _ _ hlen]
    · by_cases hs : c = '\\'
      · subst hs
        have hesc : escC '\\' = ['\\', '\\'] := by decide
        simp only [escStr, hesc, List.cons_append, List.nil_append,
          List.append_assoc, List.length_cons, List.length_append] at hf ⊢
        cases f with
        | zero => omega
        | succ g =>
          have hlen : (escStr r ++ '"' :: rest).length ≤ g := by
            simp only [List.length_append, List.length_cons]
            omega
          simp [pStrLGo, ih _ _ hlen]
      · by_cases h8 : c = Char.ofNat 8
        · subst h8
          have hesc : escC (Char.ofNat 8) = ['\\', 'b'] := by decide
          simp only [escStr, hesc, List.cons_append, List.nil_append,
            List.append_assoc, List.length_cons, List.length_append] at hf ⊢
          cases f with
          | zero => omega
          | succ g =>
            have hlen : (escStr r ++ '"' :: rest).length ≤ g := by
              simp only [List.length_append, List.length_cons]
              omega
            simp [pStrLGo, ih _ _ hlen]
        · by_cases h9 : c = Char.ofNat 9
          · subst h9
            have hesc : escC (Char.ofNat 9) = ['\\', 't'] := by decide
            simp only [escStr, hesc, List.cons_append, List.nil_append,
              List.append_assoc, List.length_cons, List.length_append] at hf ⊢
            cases f with
            | zero => omega
            | succ g =>
              have hlen : (escStr r ++ '"' :: rest).length ≤ g := by
                simp only [List.length_append, List.length_cons]
                omega
              simp [pStrLGo, ih _ _ hlen]
          · by_cases h10 : c = Char.ofNat 10
            · subst h10
              have hesc : escC (Char.ofNat 10) = ['\\', 'n'] := by decide
              simp only [escStr, hesc, List.cons_append, List.nil_append,
                List.append_assoc, List.length_cons, List.length_append] at hf ⊢
              cases f with
              | zero => omega
              | succ g =>
                have hlen : (escStr r ++ '"' :: rest).length ≤ g := by
                  simp only [List.length_append, List.length_cons]
                  omega
                simp [pStrLGo, ih _ _ hlen]
            · by_cases h12 : c = Char.ofNat 12
              · subst h12
                have hesc : escC (Char.ofNat 12) = ['\\', 'f'] := by decide
                simp only [escStr, hesc, List.cons_append, List.nil_append,
                  List.append_assoc, List.length_cons, List.length_append] at hf ⊢
                cases f with
                | zero => omega
                | succ g =>
                  have hlen : (escStr r ++ '"' :: rest).length ≤ g := by
                    simp only [List.length_append, List.length_cons]
                    omega
                  simp [pStrLGo, ih _ _ hlen]
              · by_cases h13 : c = Char.ofNat 13
                · subst h13
                  have hesc : escC (Char.ofNat 13) = ['\\', 'r'] := by decide
                  simp only [escStr, hesc, List.cons_append, List.nil_append,
                    List.append_assoc, List.length_cons, List.length_append] at hf ⊢
                  cases f with
                  | zero => omega
                  | succ g =>
                    have hlen : (escStr r ++ '"' :: rest).length ≤ g := by
                      simp only [List.length_append, List.length_cons]
                      omega
                    simp [pStrLGo, ih _ _ hlen]
                · by_cases hlt : c.toNat < 32
                  · have hesc : escC c =
                        ['\\', 'u', '0', '0', hexDig (c.toNat / 16),
                          hexDig (c.toNat % 16)] := by
                      simp [escC, hq, hs, h8, h9, h10, h12, h13, hlt]
                    simp only [escStr, hesc, List.cons_append, List.nil_append,
                      List.append_assoc, List.length_cons,
                      List.length_append] at hf ⊢
                    cases f with
                    | zero => omega
                    | succ g =>
                      have hlen : (escStr r ++ '"' :: rest).length ≤ g := by
                        simp only [List.length_append, List.length_cons]
                        omega
                      have hva : hexVal (hexDig (c.toNat / 16)) =
                          c.toNat / 16 := hexVal_hexDig _ (by omega)
                      have hvb : hexVal (hexDig (c.toNat % 16)) =
                          c.toNat % 16 := hexVal_hexDig _ (by omega)
                      have hda : c.toNat / 16 < 16 := by omega
                      have hdb : c.toNat % 16 < 16 := by omega
                      have hz : hexVal '0' = 0 := by decide
                      have hn : ((hexVal '0' * 16 + hexVal '0') * 16 +
                          c.toNat / 16) * 16 + c.toNat % 16 = c.toNat := by
                        rw [hz]
                        omega
                      have hs1 : ¬ 55296 ≤ c.toNat := by omega
                      have hs2 : ¬ 56320 ≤ c.toNat := by omega
                      have hn2 : c.toNat / 16 * 16 + c.toNat % 16 = c.toNat := by
                        omega
                      simp [pStrLGo, hva, hvb, hda, hdb, hz, hn, hn2, hs1, hs2,
                        ih _ _ hlen, Char.ofNat_toNat]
                  · have hesc : escC c = [c] := by
                      simp [escC, hq, hs, h8, h9, h10, h12, h13, hlt]
                    simp only [escStr, hesc, List.cons_append, List.nil_append,
                      List.append_assoc, List.length_cons,
                      List.length_append] at hf ⊢
                    cases f with
                    | zero => omega
                    | succ g =>
                      have hlen : (escStr r ++ '"' :: rest).length ≤ g := by
                        simp only [List.length_append, List.length_cons]
                        omega
                      simp [pStrLGo, hq, hs, hlt, ih _ _ hlen]

/-- Decoding a quoted-string body inverts the escaper. -/
theorem pStrL_esc (l rest : List Char) :
    pStrL (escStr l ++ '"' :: rest) = some (l, rest) :=
  pStrLGo_esc l rest _ (Nat.le_refl _)

/-- The number muncher stops exactly at a non-token character. -/
theorem munchNum_all : ∀ (l rest : List Char), l.all isNumC = true →
    numStop rest = true → munchNum (l ++ rest) = l := by
  intro l
  induction l with
  | nil =>
    intro rest _ hstop
    cases rest with
    | nil => rfl
    | cons c t =>
      simp only [numStop, Bool.not_eq_true'] at hstop
      simp [munchNum, hstop]
  | cons c t ih =>
    intro rest hall hstop
    simp only [List.all_cons, Bool.and_eq_true] at hall
    simp [munchNum, hall.1, ih rest hall.2 hstop]

/-- Number-token characters are not JSON whitespace. -/
theorem numC_not_ws (c : Char) (h : isNumC c = true) : isJsonWs c = false := by
  by_contra hws
  rw [Bool.not_eq_false] at hws
  simp only [isJsonWs, Bool.or_eq_true, decide_eq_true_eq] at hws
  rcases hws with ((h' | h') | h') | h' <;> subst h' <;>
    exact absurd h (by decide)

/-- Dispatch facts about the head of a number token. -/
theorem numHead_facts (c : Char) (h : c = '-' ∨ c.isDigit = true) :
    isJsonWs c = false ∧ ¬ c = '{' ∧ ¬ c = '[' ∧ ¬ c = '"' ∧
      ¬ c = 't' ∧ ¬ c = 'f' ∧ ¬ c = 'n' := by
  rcases h with h | h
  · subst h; refine ⟨by decide, by decide, by decide, by decide, by decide,
      by decide, by decide⟩
  · refine ⟨?_, ?_, ?_, ?_, ?_, ?_, ?_⟩
    · by_contra hws
      rw [Bool.not_eq_false] at hws
      simp only [isJsonWs, Bool.or_eq_true, decide_eq_true_eq] at hws
      rcases hws with ((h' | h') | h') | h' <;> subst h' <;>
        exact absurd h (by decide)
    all_goals
      intro hh
      subst hh
      exact absurd h (by decide)

/-- `String.mk` undoes `String.data`. -/
theorem String.mk_data (s : String) : String.mk s.data = s := by
  cases s
  rfl

/-- Parsing the printed `null`. -/
theorem pVal_null (g : Nat) (rest : List Char) :
    pVal (g + 1) (toL "null" ++ rest) = some (.null, rest) := by
  have h : toL "null" = ['n', 'u', 'l', 'l'] := by decide
  rw [h]
  simp [pVal, skipWs, isJsonWs, List.isPrefixOf]

/-- Parsing the printed `true`. -/
theorem pVal_true (g : Nat) (rest : List Char) :
    pVal (g + 1) (toL "true" ++ rest) = some (.bool true, rest) := by
  have h : toL "true" = ['t', 'r', 'u', 'e'] := by decide
  rw [h]
  simp [pVal, skipWs, isJsonWs, List.isPrefixOf]

/-- Parsing the printed `false`. -/
theorem pVal_false (g : Nat) (rest : List Char) :
    pVal (g + 1) (toL "false" ++ rest) = some (.bool false, rest) := by
  have h : toL "false" = ['f', 'a', 'l', 's', 'e'] := by decide
  rw [h]
  simp [pVal, skipWs, isJsonWs, List.isPrefixOf]

/-- Parsing a printed number token. -/
theorem pVal_num (g : Nat) (rest : List Char) (s : String)
    (hwf : numWF s = true) (hstop : numStop rest = true) :
    pVal (g + 1) (s.data ++ rest) = some (.num s, rest) := by
  simp only [numWF, Bool.and_eq_true, decide_eq_true_eq] at hwf
  obtain ⟨⟨hne, hall⟩, hok⟩ := hwf
  obtain ⟨c0, r0, hd, hc0⟩ := numOK_head s.data hok
  obtain ⟨hws, hb1, hb2, hb3, hb4, hb5, hb6⟩ := numHead_facts c0 hc0
  rw [hd]
  simp only [List.cons_append, pVal]
  rw [skipWs_cons _ _ hws]
  simp only [if_neg hb1, if_neg hb2, if_neg hb3, if_neg hb4, if_neg hb5,
    if_neg hb6]
  have hmunch : munchNum (c0 :: (r0 ++ rest)) = c0 :: r0 := by
    have := munchNum_all (c0 :: r0) rest (by rw [← hd]; exact hall) hstop
    simpa using this
  rw [hmunch]
  have hcond : (decide (¬ c0 :: r0 = []) && numOK (c0 :: r0)) = true := by
    simp only [Bool.and_eq_true, decide_eq_true_eq]
    exact ⟨by simp, by rw [← hd]; exact hok⟩
  rw [if_pos (by simpa using hcond)]
  have hdrop : (c0 :: (r0 ++ rest)).drop (c0 :: r0).length = rest := by
    have h2 : (c0 :: r0) ++ rest = c0 :: (r0 ++ rest) := by simp
    rw [← h2, List.drop_left]
  rw [hdrop, ← hd, String.mk_data]

/-- Parsing a printed string literal. -/
theorem pVal_str (g : Nat) (rest : List Char) (s : String) :
    pVal (g + 1) (strQ s ++ rest) = some (.str s, rest) := by
  have h : strQ s ++ rest = '"' :: (escStr s.data ++ '"' :: rest) := by
    simp [strQ]
  rw [h]
  simp only [pVal]
  rw [skipWs_cons _ _ (by decide)]
  simp only [if_neg (by decide : ¬ '"' = '{'), if_neg (by decide : ¬ '"' = '['),
    if_pos rfl]
  rw [pStrL_esc]
  simp [String.mk_data]

/-- Parsing the printed empty array. -/
theorem pVal_arrNil (g : Nat) (rest : List Char) :
    pVal (g + 1) ('[' :: ']' :: rest) = some (.arr [], rest) := rfl

/-- Parsing the printed empty object. -/
theorem pVal_objNil (g : Nat) (rest : List Char) :
    pVal (g + 1) ('{' :: '}' :: rest) = some (.obj [], rest) := rfl

/-- The parse property of a printed value. -/
def ElemP (x : JsonVal) : Prop :=
  ∀ (lvl : Nat) (rest : List Char) (f : Nat), jsize x ≤ f →
    numStop rest = true → pVal f (strVal lvl x ++ rest) = some (x, rest)

/-- Whitespace skipping over a whitespace character. -/
theorem skipWs_ws_cons (c : Char) (t : List Char) (h : isJsonWs c = true) :
    skipWs (c :: t) = skipWs t := by
  simp [skipWs, h]

/-- Whitespace skipping over a printed line break. -/
theorem skipWs_LF (t : List Char) :
    skipWs (Char.ofNat 10 :: t) = skipWs t :=
  skipWs_ws_cons (Char.ofNat 10) t (by decide)

/-- Whitespace skipping over printed indentation. -/
theorem skipWs_ind (n : Nat) (t : List Char) :
    skipWs (indChars n ++ t) = skipWs t :=
  skipWs_append (indChars n) t (indChars_ws n)

/-- The tail of a printed array stops number tokens. -/
theorem numStop_arrT (lvl lvl2 : Nat) (xs : List JsonVal) (rest : List Char) :
    numStop (strArrT lvl xs ++ Char.ofNat 10 :: indChars lvl2 ++
      ']' :: rest) = true := by
  cases xs with
  | nil => simp only [strArrT, List.nil_append]; rfl
  | cons x t => simp only [strArrT, List.cons_append]; rfl

/-- The tail of a printed object stops number tokens. -/
theorem numStop_objT (lvl lvl2 : Nat) (es : List (String × JsonVal))
    (rest : List Char) :
    numStop (strObjT lvl es ++ Char.ofNat 10 :: indChars lvl2 ++
      '}' :: rest) = true := by
  cases es with
  | nil => simp only [strObjT, List.nil_append]; rfl
  | cons e t => simp only [strObjT, List.cons_append]; rfl

/-- Parsing the printed tail of an array accumulates the items. -/
theorem pArrLoop_print : ∀ (xs : List JsonVal), (∀ x, x ∈ xs → ElemP x) →
    ∀ (acc : List JsonVal) (g lvl lvl2 : Nat) (rest : List Char),
      jsizeL xs ≤ g →
      pArrLoop g (strArrT lvl xs ++ Char.ofNat 10 :: indChars lvl2 ++
        ']' :: rest) acc = some (.arr (acc.reverse ++ xs), rest) := by
  intro xs
  induction xs with
  | nil =>
    intro _ acc g lvl lvl2 rest hg
    cases g with
    | zero => simp [jsizeL] at hg
    | succ g1 =>
      simp [pArrLoop, strArrT, skipWs_LF, skipWs_ind,
        skipWs_cons ']' _ (by decide)]
  | cons x xs' ih =>
    intro hmem acc g lvl lvl2 rest hg
    cases g with
    | zero => simp [jsizeL] at hg
    | succ g1 =>
      have hx : ElemP x := hmem x (List.mem_cons_self x xs')
      have hsz : jsize x ≤ g1 ∧ jsizeL xs' ≤ g1 := by
        simp only [jsizeL] at hg
        omega
      have hval : pVal g1 (Char.ofNat 10 :: (indChars lvl ++ (strVal lvl x ++
          (strArrT lvl xs' ++ Char.ofNat 10 :: indChars lvl2 ++
            ']' :: rest)))) =
          some (x, strArrT lvl xs' ++ Char.ofNat 10 :: indChars lvl2 ++
            ']' :: rest) := by
        rw [pVal_ws g1 _ (strVal lvl x ++ (strArrT lvl xs' ++
            Char.ofNat 10 :: indChars lvl2 ++ ']' :: rest))
          (by rw [skipWs_LF, skipWs_ind])]
        exact hx lvl _ g1 hsz.1 (numStop_arrT lvl lvl2 xs' rest)
      have hloop := ih (fun y hy => hmem y (List.mem_cons_of_mem x hy))
        (x :: acc) g1 lvl lvl2 rest hsz.2
      simp only [List.cons_append, List.append_assoc] at hval hloop
      simp [pArrLoop, strArrT, skipWs_cons ',' _ (by decide), hval, hloop]
  
/-- Parsing the printed members of an object folds property definition
over them. -/
theorem pObjLoop_print : ∀ (es : List (String × JsonVal)),
    (∀ e, e ∈ es → ElemP e.2) → ∀ (k : String) (x : JsonVal), ElemP x →
    ∀ (acc : List (String × JsonVal)) (g lvl lvl2 : Nat) (rest : List Char),
      1 + jsize x + jsizeE es ≤ g →
      pObjLoop g (strEnt lvl (k, x) ++ strObjT lvl es ++ Char.ofNat 10 ::
        indChars lvl2 ++ '}' :: rest) acc =
      some (.obj (List.foldl (fun a e => insertKey a e.1 e.2)
        (insertKey acc k x) es), rest) := by
  intro es
  induction es with
  | nil =>
    intro _ k x hx acc g lvl lvl2 rest hg
    cases g with
    | zero => omega
    | succ g1 =>
      have hval : pVal g1 (' ' :: (strVal lvl x ++ (Char.ofNat 10 ::
          (indChars lvl2 ++ ('}' :: rest))))) =
          some (x, Char.ofNat 10 :: (indChars lvl2 ++ ('}' :: rest))) := by
        rw [pVal_ws g1 _ (strVal lvl x ++ (Char.ofNat 10 ::
            (indChars lvl2 ++ ('}' :: rest))))
          (by rw [skipWs_ws_cons ' ' _ (by decide)])]
        refine hx lvl _ g1 (by simp only [jsizeE] at hg; omega) (by rfl)
      simp [pObjLoop, strEnt, strObjT, strQ, skipWs_cons '"' _ (by decide),
        pStrL_esc, skipWs_cons ':' _ (by decide), hval, skipWs_LF,
        skipWs_ind, skipWs_cons '}' _ (by decide), String.mk_data]
  | cons e2 es' ih =>
    intro hmem k x hx acc g lvl lvl2 rest hg
    obtain ⟨k2, x2⟩ := e2
    cases g with
    | zero => omega
    | succ g1 =>
      have hval : pVal g1 (' ' :: (strVal lvl x ++ (',' :: (Char.ofNat 10 ::
          (indChars lvl ++ (strEnt lvl (k2, x2) ++ (strObjT lvl es' ++
            (Char.ofNat 10 :: (indChars lvl2 ++ ('}' :: rest))))))))))  =
          some (x, ',' :: (Char.ofNat 10 :: (indChars lvl ++
            (strEnt lvl (k2, x2) ++ (strObjT lvl es' ++ (Char.ofNat 10 ::
              (indChars lvl2 ++ ('}' :: rest)))))))) := by
        rw [pVal_ws g1 _ (strVal lvl x ++ (',' :: (Char.ofNat 10 ::
            (indChars lvl ++ (strEnt lvl (k2, x2) ++ (strObjT lvl es' ++
              (Char.ofNat 10 :: (indChars lvl2 ++ ('}' :: rest)))))))))
          (by rw [skipWs_ws_cons ' ' _ (by decide)])]
        refine hx lvl _ g1 (by simp only [jsizeE] at hg; omega) (by rfl)
      have hloop : pObjLoop g1 (Char.ofNat 10 :: (indChars lvl ++
          (strEnt lvl (k2, x2) ++ (strObjT lvl es' ++ (Char.ofNat 10 ::
            (indChars lvl2 ++ ('}' :: rest)))))))
          (insertKey acc k x) =
          some (.obj (List.foldl (fun a e => insertKey a e.1 e.2)
            (insertKey (insertKey acc k x) k2 x2) es'), rest) := by
        rw [pObjLoop_ws g1 _ (strEnt lvl (k2, x2) ++ strObjT lvl es' ++
            Char.ofNat 10 :: indChars lvl2 ++ '}' :: rest) _
          (by rw [skipWs_LF, skipWs_ind]; simp [List.append_assoc])]
        exact ih (fun e he => hmem e (List.mem_cons_of_mem (k2, x2) he))
          k2 x2 (hmem (k2, x2) (List.mem_cons_self (k2, x2) es'))
          (insertKey acc k x) g1 lvl lvl2 rest
          (by simp only [jsizeE] at hg; omega)
      simp only [strEnt, strQ, List.cons_append, List.append_assoc,
        List.nil_append] at hval hloop
      simp [pObjLoop, strEnt, strObjT, strQ, skipWs_cons '"' _ (by decide),
        pStrL_esc, skipWs_cons ':' _ (by decide), hval,
        skipWs_cons ',' _ (by decide), hloop, String.mk_data]

/-- `JSON.parse` inverts the printer on every well-formed value, with
any sufficient fuel and any token-stopping remainder. -/
theorem pVal_print : ∀ (n : Nat) (v : JsonVal), jsize v ≤ n → jsonWF v →
    ElemP v := by
  intro n
  induction n with
  | zero => intro v hv _; have := jsize_pos v; omega
  | succ n ih =>
    intro v hv hwf
    cases v with
    | null =>
      intro lvl rest f hf hstop
      cases f with
      | zero => have := jsize_pos JsonVal.null; omega
      | succ f1 => simpa [strVal] using pVal_null f1 rest
    | bool b =>
      intro lvl rest f hf hstop
      cases f with
      | zero => have := jsize_pos (JsonVal.bool b); omega
      | succ f1 =>
        cases b with
        | true => simpa [strVal] using pVal_true f1 rest
        | false => simpa [strVal] using pVal_false f1 rest
    | num s =>
      intro lvl rest f hf hstop
      cases f with
      | zero => have := jsize_pos (JsonVal.num s); omega
      | succ f1 =>
        rw [jsonWF] at hwf
        simpa [strVal] using pVal_num f1 rest s (numCanon_numWF s hwf)
          hstop
    | str s =>
      intro lvl rest f hf hstop
      cases f with
      | zero => have := jsize_pos (JsonVal.str s); omega
      | succ f1 => simpa [strVal] using pVal_str f1 rest s
    | arr xs =>
      cases xs with
      | nil =>
        intro lvl rest f hf hstop
        cases f with
        | zero => have := jsize_pos (JsonVal.arr []); omega
        | succ f1 =>
          have h2 : strVal lvl (JsonVal.arr []) ++ rest =
              '[' :: ']' :: rest := rfl
          rw [h2]
          exact pVal_arrNil f1 rest
      | cons x xs' =>
        rw [jsonWF] at hwf
        rw [jsonWFL] at hwf
        have hxP : ElemP x := ih x
          (by simp only [jsize, jsizeL] at hv; omega) hwf.1
        have hmemP : ∀ y, y ∈ xs' → ElemP y := by
          intro y hy
          refine ih y ?_ (jsonWFL_mem xs' y hy hwf.2)
          have h1 := jsize_mem_arr xs' y hy
          simp only [jsize, jsizeL] at hv
          omega
        intro lvl rest f hf hstop
        cases f with
        | zero => have := jsize_pos (JsonVal.arr (x :: xs')); omega
        | succ f1 =>
          have hfx : jsize x ≤ f1 := by
            simp only [jsize, jsizeL] at hf; omega
          have hfl : jsizeL xs' ≤ f1 := by
            simp only [jsize, jsizeL] at hf; omega
          obtain ⟨c0, t0, hd, hws0, hb1, hb2, hb3, hb4⟩ :=
            strVal_head (lvl + 1) x hwf.1
          have hsk : ∀ t : List Char, skipWs (c0 :: t) = c0 :: t :=
            fun t => skipWs_cons c0 t hws0
          have hvx : pVal f1 (c0 :: (t0 ++ (strArrT (lvl + 1) xs' ++
              (Char.ofNat 10 :: (indChars lvl ++ (']' :: rest)))))) =
              some (x, strArrT (lvl + 1) xs' ++
                (Char.ofNat 10 :: (indChars lvl ++ (']' :: rest)))) := by
            rw [← List.cons_append, ← hd]
            exact hxP (lvl + 1) _ f1 hfx
              (by simpa using numStop_arrT (lvl + 1) lvl xs' rest)
          have hloop := pArrLoop_print xs' hmemP [x] f1 (lvl + 1) lvl rest hfl
          simp only [List.cons_append, List.append_assoc] at hloop
          simp [strVal, pVal, skipWs_cons '[' _ (by decide), skipWs_LF,
            skipWs_ind, hd, hsk, hb1, hvx, hloop]
    | obj es =>
      cases es with
      | nil =>
        intro lvl rest f hf hstop
        cases f with
        | zero => have := jsize_pos (JsonVal.obj []); omega
        | succ f1 =>
          have h2 : strVal lvl (JsonVal.obj []) ++ rest =
              '{' :: '}' :: rest := rfl
          rw [h2]
          exact pVal_objNil f1 rest
      | cons e es' =>
        obtain ⟨k1, x1⟩ := e
        rw [jsonWF] at hwf
        obtain ⟨hbld, hwfE⟩ := hwf
        rw [jsonWFE] at hwfE
        have hx1P : ElemP x1 := ih x1
          (by simp only [jsize, jsizeE] at hv; omega) hwfE.1
        have hmemP : ∀ e2 : String × JsonVal, e2 ∈ es' → ElemP e2.2 := by
          intro e2 he
          refine ih e2.2 ?_ (jsonWFE_mem es' e2 he hwfE.2)
          have h1 := jsize_mem_obj es' e2 he
          simp only [jsize, jsizeE] at hv
          omega
        intro lvl rest f hf hstop
        cases f with
        | zero => have := jsize_pos (JsonVal.obj ((k1, x1) :: es')); omega
        | succ f1 =>
          have hsz : 1 + jsize x1 + jsizeE es' ≤ f1 := by
            simp only [jsize, jsizeE] at hf; omega
          have hloop := pObjLoop_print es' hmemP k1 x1 hx1P [] f1 (lvl + 1)
            lvl rest hsz
          have hobj : List.foldl (fun a e => insertKey a e.1 e.2)
              (insertKey [] k1 x1) es' = (k1, x1) :: es' := by
            simpa [buildObj] using hbld
          rw [hobj] at hloop
          simp only [strEnt, strQ, List.cons_append, List.append_assoc,
            List.nil_append] at hloop
          simp [strVal, pVal, strEnt, strQ, skipWs_cons '\x7b' _ (by decide),
            skipWs_LF, skipWs_ind, skipWs_cons '"' _ (by decide), hloop]

/-- The fuel measure of a value is bounded by the length of its printed
text plus one, so the fuel `JSON.parse` allots always suffices. -/
theorem jsize_le_len : ∀ (n : Nat),
    (∀ v, jsize v ≤ n → ∀ lvl, jsize v ≤ (strVal lvl v).length + 1) ∧
    (∀ xs, jsizeL xs ≤ n → ∀ lvl,
      jsizeL xs ≤ (strArrT lvl xs).length + 1) ∧
    (∀ es, jsizeE es ≤ n → ∀ lvl,
      jsizeE es ≤ (strObjT lvl es).length + 1) := by
  intro n
  induction n with
  | zero =>
    refine ⟨fun v hv => ?_, fun xs hxs => ?_, fun es hes => ?_⟩
    · have := jsize_pos v; omega
    · cases xs with
      | nil => simp [jsizeL] at hxs
      | cons x t => simp [jsizeL] at hxs
    · cases es with
      | nil => simp [jsizeE] at hes
      | cons e t => simp [jsizeE] at hes
  | succ n ih =>
    obtain ⟨ihV, ihL, ihE⟩ := ih
    refine ⟨fun v hv lvl => ?_, fun xs hxs lvl => ?_, fun es hes lvl => ?_⟩
    · cases v with
      | null => simp [jsize, strVal, toL]
      | bool b => cases b <;> simp [jsize, strVal, toL]
      | num s => simp [jsize, strVal]
      | str s => simp [jsize, strVal]
      | arr xs =>
        cases xs with
        | nil => simp [jsize, jsizeL, strVal]
        | cons x t =>
          simp only [jsize, jsizeL] at hv ⊢
          have h1 := ihV x (by omega) (lvl + 1)
          have h2 := ihL t (by omega) (lvl + 1)
          simp only [strVal, List.length_cons, List.length_append,
            indChars, List.length_replicate]
          omega
      | obj es =>
        cases es with
        | nil => simp [jsize, jsizeE, strVal]
        | cons e t =>
          simp only [jsize, jsizeE] at hv ⊢
          have h1 := ihV e.2 (by omega) (lvl + 1)
          have h2 := ihE t (by omega) (lvl + 1)
          simp only [strVal, strEnt, strQ, List.length_cons,
            List.length_append, indChars, List.length_replicate]
          omega
    · cases xs with
      | nil => simp [jsizeL, strArrT]
      | cons x t =>
        simp only [jsizeL] at hxs ⊢
        have h1 := ihV x (by omega) lvl
        have h2 := ihL t (by omega) lvl
        simp only [strArrT, List.length_cons, List.length_append,
          indChars, List.length_replicate]
        omega
    · cases es with
      | nil => simp [jsizeE, strObjT]
      | cons e t =>
        simp only [jsizeE] at hes ⊢
        have h1 := ihV e.2 (by omega) lvl
        have h2 := ihE t (by omega) lvl
        simp only [strObjT, strEnt, strQ, List.length_cons,
          List.length_append, indChars, List.length_replicate]
        omega

/-- `JSON.parse` applied to `JSON.stringify(v, null, 2)` recovers every
well-formed value exactly. -/
theorem jsonParse_print (v : JsonVal) (hwf : jsonWF v) :
    jsonParse (strVal 0 v) = some v := by
  have hsz := (jsize_le_len (jsize v)).1 v le_rfl 0
  have h := pVal_print (jsize v) v le_rfl hwf 0 []
    ((strVal 0 v).length + 1) (by omega) rfl
  rw [List.append_nil] at h
  rw [jsonParse, h]
  rfl

/-! ### Re-matching the fence on the rewritten body -/

/-- A `\s*` run stops exactly at the first non-whitespace character. -/
theorem wsCount_stop (W : List Char) (d : Char) (t : List Char)
    (hW : ∀ c ∈ W, isJsWs c = true) (hd : isJsWs d = false) :
    wsCount (W ++ d :: t) = W.length := by
  induction W with
  | nil => simp [wsCount, hd]
  | cons c r ih =>
    simp only [List.cons_append, wsCount, hW c (List.mem_cons_self c r),
      if_true, List.length_cons, List.append_eq]
    rw [ih (fun c hc => hW c (List.mem_cons_of_mem _ hc))]

/-- The length of a `\s*` run never passes a non-whitespace character,
and the remainder of the scanned prefix is empty or starts with a
non-whitespace character. -/
theorem wsCount_le (E : List Char) (c : Char) (X : List Char)
    (hc : isJsWs c = false) :
    wsCount (E ++ c :: X) ≤ E.length ∧
      (E.drop (wsCount (E ++ c :: X)) = [] ∨
        ∃ d E2, E.drop (wsCount (E ++ c :: X)) = d :: E2 ∧
          isJsWs d = false) := by
  induction E with
  | nil => simp [wsCount, hc]
  | cons e E2 ih =>
    by_cases he : isJsWs e = true
    · simp only [List.cons_append, wsCount, he, if_true, List.length_cons,
        List.drop_succ_cons, List.append_eq]
      exact ⟨by omega, ih.2⟩
    · rw [Bool.not_eq_true] at he
      simp only [List.cons_append, wsCount, he, Bool.false_eq_true,
        if_false, List.drop_zero, List.append_eq]
      exact ⟨by omega, Or.inr ⟨e, E2, rfl, he⟩⟩

/-- The `\s*` run before a fixed non-whitespace character does not depend
on what follows that character. -/
theorem wsCount_shared (E : List Char) (c : Char) (X Y : List Char)
    (hc : isJsWs c = false) :
    wsCount (E ++ c :: X) = wsCount (E ++ c :: Y) := by
  induction E with
  | nil => simp [wsCount, hc]
  | cons e E2 ih =>
    simp only [List.cons_append, wsCount, List.append_eq]
    rw [ih]

/-- A closing fence after a whitespace run is always found by the lazy
scan (at some position). -/
theorem scanClose_exists : ∀ (x : List Char) (W2 y : List Char),
    (∀ c ∈ W2, isJsWs c = true) →
    ∃ k, scanClose (x ++ '}' :: (W2 ++ (ticks3 ++ y))) = some k := by
  intro x
  induction x with
  | nil =>
    intro W2 y hW2
    have e1 : W2 ++ (ticks3 ++ y) = W2 ++ tick :: ([tick, tick] ++ y) :=
      rfl
    rw [List.nil_append, scanClose, e1,
      wsCount_stop W2 tick _ hW2 (by decide)]
    have hpre : ticks3 <+: tick :: tick :: tick :: y :=
      List.prefix_append ticks3 y
    exact ⟨1 + W2.length + 3, by simp [hpre]⟩
  | cons c x2 ih =>
    intro W2 y hW2
    obtain ⟨k, hk⟩ := ih W2 y hW2
    by_cases hc : c = '}'
    · subst hc
      by_cases hp : ticks3.isPrefixOf ((x2 ++ '}' :: (W2 ++ (ticks3 ++
          y))).drop (wsCount (x2 ++ '}' :: (W2 ++ (ticks3 ++ y))))) = true
      · exact ⟨1 + wsCount (x2 ++ '}' :: (W2 ++ (ticks3 ++ y))) + 3,
          by simp [scanClose, hp]⟩
      · rw [Bool.not_eq_true] at hp
        exact ⟨k + 1, by simp [scanClose, hp, hk]⟩
    · rw [List.cons_append, scanClose, if_neg hc, hk]
      exact ⟨k + 1, rfl⟩

/-- The closing triple backquote never matches at a character other than
a backquote. -/
theorem ticks3_head_ne (d : Char) (r : List Char) (hd : ¬ d = tick) :
    ticks3.isPrefixOf (d :: r) = false := by
  have : (tick == d) = false := by
    rw [beq_eq_false_iff_ne]
    exact fun h => hd h.symm
  simp [ticks3, List.isPrefixOf, this]

/-- When the scanned interior holds no backquote, the lazy scan stops
exactly at the brace that closes the span. -/
theorem scanClose_exact : ∀ (u : List Char) (W2 B : List Char),
    (∀ c ∈ u, ¬ c = tick) → (∀ c ∈ W2, isJsWs c = true) →
    scanClose (u ++ '}' :: (W2 ++ (ticks3 ++ B))) =
      some (u.length + 1 + W2.length + 3) := by
  intro u
  induction u with
  | nil =>
    intro W2 B _ hW2
    have e1 : W2 ++ (ticks3 ++ B) = W2 ++ tick :: ([tick, tick] ++ B) :=
      rfl
    rw [List.nil_append, scanClose, e1,
      wsCount_stop W2 tick _ hW2 (by decide)]
    have hpre : ticks3 <+: tick :: tick :: tick :: B :=
      List.prefix_append ticks3 B
    simp [hpre]
  | cons c u2 ih =>
    intro W2 B hu hW2
    have hrec := ih W2 B (fun c hc => hu c (List.mem_cons_of_mem _ hc)) hW2
    by_cases hc : c = '}'
    · subst hc
      rw [List.cons_append, scanClose]
      obtain ⟨hle, hcase⟩ := wsCount_le u2 '}' (W2 ++ (ticks3 ++ B))
        (by decide)
      have hsplit : (u2 ++ '}' :: (W2 ++ (ticks3 ++ B))).drop
          (wsCount (u2 ++ '}' :: (W2 ++ (ticks3 ++ B)))) =
          u2.drop (wsCount (u2 ++ '}' :: (W2 ++ (ticks3 ++ B)))) ++
            '}' :: (W2 ++ (ticks3 ++ B)) := by
        rw [List.drop_append_eq_append_drop, Nat.sub_eq_zero_of_le hle,
          List.drop_zero]
      have hfalse : ticks3.isPrefixOf
          ((u2 ++ '}' :: (W2 ++ (ticks3 ++ B))).drop
            (wsCount (u2 ++ '}' :: (W2 ++ (ticks3 ++ B))))) = false := by
        rw [hsplit]
        rcases hcase with h0 | ⟨d, E2, hdE, hdws⟩
        · rw [h0, List.nil_append]
          exact ticks3_head_ne '}' _ (by decide)
        · rw [hdE, List.cons_append]
          refine ticks3_head_ne d _ ?_
          have hmem : d ∈ u2 := List.drop_subset _ u2
            (by rw [hdE]; exact List.mem_cons_self d E2)
          exact hu d (List.mem_cons_of_mem _ hmem)
      simp [hfalse, hrec]
      omega
    · rw [List.cons_append, scanClose, if_neg hc, hrec]
      simp
      omega

/-- A pattern shorter than a shared prefix matches independently of what
follows the shared part. -/
theorem prefixOf_shared (pat D X Y : List Char)
    (h : pat.length ≤ D.length) :
    pat.isPrefixOf (D ++ X) = pat.isPrefixOf (D ++ Y) := by
  have key : ∀ Z : List Char, pat.isPrefixOf (D ++ Z) = true ↔ pat <+: D := by
    intro Z
    rw [List.isPrefixOf_iff_prefix]
    constructor
    · intro hp
      have := List.prefix_iff_eq_take.mp hp
      rw [List.take_append_of_le_length h] at this
      rw [this]
      exact List.take_prefix _ _
    · intro hp
      exact hp.trans (List.prefix_append D Z)
  by_cases hp : pat <+: D
  · rw [(key X).mpr hp, (key Y).mpr hp]
  · have hx : pat.isPrefixOf (D ++ X) = false := by
      rw [← Bool.not_eq_true]
      exact fun hh => hp ((key X).mp hh)
    have hy : pat.isPrefixOf (D ++ Y) = false := by
      rw [← Bool.not_eq_true]
      exact fun hh => hp ((key Y).mp hh)
    rw [hx, hy]

/-- The fence pattern matches at the head of a canonically fenced block.
-/
theorem fenceAt_shape (W si W2 B : List Char)
    (hW : ∀ c ∈ W, isJsWs c = true) (hW2 : ∀ c ∈ W2, isJsWs c = true)
    (hsi : ∀ c ∈ si, ¬ c = tick) :
    fenceAt (fenceOpen ++ (W ++ ('{' :: (si ++ '}' ::
        (W2 ++ (ticks3 ++ B)))))) =
      some (7 + W.length + 1 + (si.length + 1 + W2.length + 3)) := by
  rw [fenceAt]
  rw [if_pos (by
    rw [List.isPrefixOf_iff_prefix]
    exact List.prefix_append fenceOpen _)]
  have h7 : (7 : Nat) = fenceOpen.length := rfl
  rw [h7, List.drop_left]
  simp only [wsCount_stop W '{' _ hW (by decide), List.drop_left]
  simp [scanClose_exact si W2 B hsi hW2]

/-- Dropping inside the left part of an append. -/
theorem dropE_split (E X : List Char) (w : Nat) (hw : w ≤ E.length) :
    (E ++ X).drop w = E.drop w ++ X := by
  rw [List.drop_append_eq_append_drop, Nat.sub_eq_zero_of_le hw,
    List.drop_zero]

/-- The fence pattern cannot match where the whitespace run after the
opener ends at a character other than `{`. -/
theorem fenceAt_none_of_head (D X : List Char) (d : Char) (E2 : List Char)
    (hD : 7 ≤ D.length)
    (hdrop : (D.drop 7).drop (wsCount (D.drop 7 ++ X)) = d :: E2)
    (hne : ¬ d = '{') :
    fenceAt (D ++ X) = none := by
  by_cases hp : fenceOpen.isPrefixOf (D ++ X) = true
  · rw [fenceAt, if_pos hp]
    have h7 : (7 : Nat) = fenceOpen.length := rfl
    have hd7 : (D ++ X).drop 7 = D.drop 7 ++ X := by
      rw [List.drop_append_eq_append_drop, Nat.sub_eq_zero_of_le hD,
        List.drop_zero]
    have hlt : wsCount (D.drop 7 ++ X) ≤ (D.drop 7).length := by
      by_contra hgt
      rw [Nat.not_le] at hgt
      rw [List.drop_eq_nil_of_le (by omega)] at hdrop
      exact absurd hdrop (by simp)
    have hsplit : (D.drop 7 ++ X).drop (wsCount (D.drop 7 ++ X)) =
        d :: (E2 ++ X) := by
      rw [dropE_split _ _ _ hlt, hdrop, List.cons_append]
    simp only [hd7, hsplit]
    simp [hne]
  · rw [Bool.not_eq_true] at hp
    rw [fenceAt]
    rw [if_neg (by rw [hp]; exact Bool.false_ne_true)]

/-- The fence pattern does match where the whitespace run after the
opener ends at a `{` (either the span's own brace or an earlier one),
provided a closing fence follows. -/
theorem fenceAt_exists_of_head (D T W2 B : List Char)
    (hW2 : ∀ c ∈ W2, isJsWs c = true) (hD : 7 ≤ D.length)
    (hpre : fenceOpen.isPrefixOf (D ++ '{' :: (T ++ '}' ::
      (W2 ++ (ticks3 ++ B)))) = true)
    (hcase : (D.drop 7).drop (wsCount (D.drop 7 ++ '{' :: (T ++ '}' ::
        (W2 ++ (ticks3 ++ B))))) = [] ∨
      ∃ E2, (D.drop 7).drop (wsCount (D.drop 7 ++ '{' :: (T ++ '}' ::
        (W2 ++ (ticks3 ++ B))))) = '{' :: E2) :
    ∃ L2, fenceAt (D ++ '{' :: (T ++ '}' :: (W2 ++ (ticks3 ++ B)))) =
      some L2 := by
  rw [fenceAt, if_pos hpre]
  have hd7 : (D ++ '{' :: (T ++ '}' :: (W2 ++ (ticks3 ++ B)))).drop 7 =
      D.drop 7 ++ '{' :: (T ++ '}' :: (W2 ++ (ticks3 ++ B))) := by
    rw [List.drop_append_eq_append_drop, Nat.sub_eq_zero_of_le hD,
      List.drop_zero]
  obtain ⟨hle, _⟩ := wsCount_le (D.drop 7) '{'
    (T ++ '}' :: (W2 ++ (ticks3 ++ B))) (by decide)
  have hsplit : (D.drop 7 ++ '{' :: (T ++ '}' :: (W2 ++ (ticks3 ++
      B)))).drop (wsCount (D.drop 7 ++ '{' :: (T ++ '}' ::
      (W2 ++ (ticks3 ++ B))))) =
      (D.drop 7).drop (wsCount (D.drop 7 ++ '{' :: (T ++ '}' ::
        (W2 ++ (ticks3 ++ B))))) ++ '{' :: (T ++ '}' ::
        (W2 ++ (ticks3 ++ B))) :=
    dropE_split _ _ _ hle
  rcases hcase with h0 | ⟨E2, hE2⟩
  · rw [h0, List.nil_append] at hsplit
    obtain ⟨k, hk⟩ := scanClose_exists T W2 B hW2
    simp only [hd7, hsplit]
    simp [hk]
  · rw [hE2, List.cons_append] at hsplit
    have hsh : (E2 ++ '{' :: T) ++ '}' :: (W2 ++ (ticks3 ++ B)) =
        E2 ++ '{' :: (T ++ '}' :: (W2 ++ (ticks3 ++ B))) := by
      simp
    obtain ⟨k, hk⟩ := scanClose_exists (E2 ++ '{' :: T) W2 B hW2
    rw [hsh] at hk
    simp only [hd7, hsplit]
    simp [hk]

/-- If the fence pattern matches at a position whose opener and
whitespace run lie inside a prefix shared with another body that
continues with the same closing fence, it matches there in that body
too. -/
theorem fenceAt_transfer (D T1 T2 W2 B : List Char) (L : Nat)
    (hD : 7 ≤ D.length) (hW2 : ∀ c ∈ W2, isJsWs c = true)
    (h2 : fenceAt (D ++ '{' :: (T2 ++ '}' :: (W2 ++ (ticks3 ++ B)))) =
      some L) :
    ∃ L2, fenceAt (D ++ '{' :: (T1 ++ '}' :: (W2 ++ (ticks3 ++ B)))) =
      some L2 := by
  have hpre2 : fenceOpen.isPrefixOf (D ++ '{' :: (T2 ++ '}' ::
      (W2 ++ (ticks3 ++ B)))) = true := by
    by_contra hp
    rw [Bool.not_eq_true] at hp
    rw [fenceAt, if_neg (by rw [hp]; exact Bool.false_ne_true)] at h2
    exact absurd h2 (by simp)
  have hgrp : ∀ X : List Char, D ++ '{' :: X = (D ++ ['{']) ++ X := by
    intro X
    simp
  have hpre1 : fenceOpen.isPrefixOf (D ++ '{' :: (T1 ++ '}' ::
      (W2 ++ (ticks3 ++ B)))) = true := by
    rw [hgrp, prefixOf_shared fenceOpen (D ++ ['{'])
      _ (T2 ++ '}' :: (W2 ++ (ticks3 ++ B)))
      (by simp [fenceOpen]; omega), ← hgrp]
    exact hpre2
  have hw : wsCount (D.drop 7 ++ '{' :: (T1 ++ '}' ::
      (W2 ++ (ticks3 ++ B)))) = wsCount (D.drop 7 ++ '{' ::
      (T2 ++ '}' :: (W2 ++ (ticks3 ++ B)))) :=
    wsCount_shared _ '{' _ _ (by decide)
  obtain ⟨hle, hcase⟩ := wsCount_le (D.drop 7) '{'
    (T2 ++ '}' :: (W2 ++ (ticks3 ++ B))) (by decide)
  rcases hcase with h0 | ⟨d, E2, hdE, hdws⟩
  · exact fenceAt_exists_of_head D T1 W2 B hW2 hD hpre1
      (Or.inl (by rw [hw]; exact h0))
  · by_cases hbrace : d = '{'
    · subst hbrace
      exact fenceAt_exists_of_head D T1 W2 B hW2 hD hpre1
        (Or.inr ⟨E2, by rw [hw]; exact hdE⟩)
    · have hnone := fenceAt_none_of_head D ('{' :: (T2 ++ '}' ::
        (W2 ++ (ticks3 ++ B)))) d E2 hD hdE hbrace
      rw [hnone] at h2
      exact absurd h2 (by simp)

/-- The leftmost-match property of `fenceFind`: no match starts before
the reported position, and the pattern matches at it. -/
theorem fenceFind_min : ∀ (s : List Char) (st len : Nat),
    fenceFind s = some (st, len) →
    (∀ j, j < st → fenceAt (s.drop j) = none) ∧
      fenceAt (s.drop st) = some len := by
  intro s
  induction s with
  | nil => intro st len h; exact absurd h (by simp [fenceFind])
  | cons c tl ih =>
    intro st len h
    rcases hat : fenceAt (c :: tl) with _ | l
    · rw [fenceFind, hat] at h
      simp only [Option.map_eq_some'] at h
      obtain ⟨p, hp, hpe⟩ := h
      obtain ⟨ih1, ih2⟩ := ih p.1 p.2 (by rw [hp])
      injection hpe with hpe1 hpe2
      subst hpe1
      subst hpe2
      constructor
      · intro j hj
        cases j with
        | zero => exact hat
        | succ j2 =>
          rw [List.drop_succ_cons]
          exact ih1 j2 (by omega)
      · rw [List.drop_succ_cons]
        exact ih2
    · rw [fenceFind, hat] at h
      simp only [Option.some_inj] at h
      injection h with h1 h2
      subst h1
      subst h2
      exact ⟨fun j hj => absurd hj (by omega),
        by rw [List.drop_zero, hat]⟩

/-- `fenceFind` over a prefix with no match defers to the remainder. -/
theorem fenceFind_append_none : ∀ (A T : List Char),
    (∀ j, j < A.length → fenceAt ((A ++ T).drop j) = none) →
    fenceFind (A ++ T) =
      (fenceFind T).map (fun p => (p.1 + A.length, p.2)) := by
  intro A
  induction A with
  | nil =>
    intro T _
    rw [List.nil_append]
    cases hf : fenceFind T with
    | none => simp
    | some p => simp
  | cons a A2 ih =>
    intro T h
    have h0 : fenceAt (a :: (A2 ++ T)) = none := by
      have h2 := h 0 (by simp)
      rw [List.drop_zero, List.cons_append] at h2
      exact h2
    rw [List.cons_append, fenceFind, h0]
    have hrec := ih T (fun j hj => by
      have h3 := h (j + 1) (by simp; omega)
      rw [List.cons_append, List.drop_succ_cons] at h3
      exact h3)
    rw [hrec]
    cases hf : fenceFind T with
    | none => simp
    | some p =>
      rfl

/-- First-occurrence index over a prefix free of the character. -/
theorem idxOfC_eq (c : Char) : ∀ (x t : List Char), ¬ c ∈ x →
    idxOfC c (x ++ c :: t) = some x.length := by
  intro x
  induction x with
  | nil => intro t _; simp [idxOfC]
  | cons d x2 ih =>
    intro t hmem
    have hd : ¬ d = c := by
      intro h
      exact hmem (by rw [h]; exact List.mem_cons_self c x2)
    rw [List.cons_append, idxOfC, if_neg hd,
      ih t (fun h => hmem (List.mem_cons_of_mem _ h))]
    rfl

/-- No last-occurrence index in a list free of the character. -/
theorem lastIdxOfC_none (c : Char) : ∀ (v : List Char), ¬ c ∈ v →
    lastIdxOfC c v = none := by
  intro v
  induction v with
  | nil => intro _; rfl
  | cons d v2 ih =>
    intro hmem
    rw [lastIdxOfC, ih (fun h => hmem (List.mem_cons_of_mem _ h))]
    rw [if_neg (fun h => hmem (by rw [h]; exact List.mem_cons_self c v2))]

/-- Last-occurrence index when the suffix after it is free of the
character. -/
theorem lastIdxOfC_eq (c : Char) : ∀ (u v : List Char), ¬ c ∈ v →
    lastIdxOfC c (u ++ c :: v) = some u.length := by
  intro u
  induction u with
  | nil =>
    intro v hmem
    rw [List.nil_append, lastIdxOfC, lastIdxOfC_none c v hmem, if_pos rfl]
    rfl
  | cons d u2 ih =>
    intro v hmem
    rw [List.cons_append, lastIdxOfC, ih v hmem]
    rfl

/-- Both regex phases on a canonically fenced body whose fence is the
leftmost match: the captured span is the brace span of the fence. -/
theorem extractSpan_shape (A W si W2 B : List Char)
    (hW : ∀ c ∈ W, isJsWs c = true) (hW2 : ∀ c ∈ W2, isJsWs c = true)
    (hff : fenceFind (A ++ (fenceOpen ++ (W ++ ('{' :: (si ++ '}' ::
        (W2 ++ (ticks3 ++ B))))))) =
      some (A.length, 7 + W.length + 1 + (si.length + 1 + W2.length + 3))) :
    extractSpan (A ++ (fenceOpen ++ (W ++ ('{' :: (si ++ '}' ::
        (W2 ++ (ticks3 ++ B))))))) =
      some (A.length + (7 + W.length), '{' :: (si ++ ['}'])) := by
  have hdrop : (A ++ (fenceOpen ++ (W ++ ('{' :: (si ++ '}' ::
      (W2 ++ (ticks3 ++ B))))))).drop A.length =
      fenceOpen ++ (W ++ ('{' :: (si ++ '}' :: (W2 ++ (ticks3 ++ B))))) :=
    List.drop_left A _
  have htake : (fenceOpen ++ (W ++ ('{' :: (si ++ '}' ::
      (W2 ++ (ticks3 ++ B)))))).take
        (7 + W.length + 1 + (si.length + 1 + W2.length + 3)) =
      fenceOpen ++ (W ++ ('{' :: (si ++ '}' :: (W2 ++ ticks3)))) := by
    have hsh : fenceOpen ++ (W ++ ('{' :: (si ++ '}' ::
        (W2 ++ (ticks3 ++ B))))) =
        (fenceOpen ++ (W ++ ('{' :: (si ++ '}' :: (W2 ++ ticks3))))) ++
          B := by
      simp
    rw [hsh]
    have hlen : 7 + W.length + 1 + (si.length + 1 + W2.length + 3) =
        (fenceOpen ++ (W ++ ('{' :: (si ++ '}' ::
          (W2 ++ ticks3))))).length := by
      simp [fenceOpen, ticks3]
      omega
    rw [hlen, List.take_left]
  have hnotin : ¬ '{' ∈ fenceOpen ++ W := by
    intro h
    rcases List.mem_append.mp h with h | h
    · exact absurd h (by decide)
    · exact absurd (hW _ h) (by decide)
  have hidx : idxOfC '{' (fenceOpen ++ (W ++ ('{' :: (si ++ '}' ::
      (W2 ++ ticks3))))) = some (7 + W.length) := by
    have hg : fenceOpen ++ (W ++ ('{' :: (si ++ '}' :: (W2 ++ ticks3)))) =
        (fenceOpen ++ W) ++ '{' :: (si ++ '}' :: (W2 ++ ticks3)) := by
      simp
    rw [hg, idxOfC_eq '{' (fenceOpen ++ W) _ hnotin]
    simp [fenceOpen]
    omega
  have hnot2 : ¬ '}' ∈ W2 ++ ticks3 := by
    intro h
    rcases List.mem_append.mp h with h | h
    · exact absurd (hW2 _ h) (by decide)
    · exact absurd h (by decide)
  have hlast : lastIdxOfC '}' (fenceOpen ++ (W ++ ('{' :: (si ++ '}' ::
      (W2 ++ ticks3))))) = some (7 + W.length + 1 + si.length) := by
    have hg : fenceOpen ++ (W ++ ('{' :: (si ++ '}' :: (W2 ++ ticks3)))) =
        (fenceOpen ++ (W ++ ('{' :: si))) ++ '}' :: (W2 ++ ticks3) := by
      simp
    rw [hg, lastIdxOfC_eq '}' _ _ hnot2]
    simp [fenceOpen]
    omega
  have hinner : innerMatch (fenceOpen ++ (W ++ ('{' :: (si ++ '}' ::
      (W2 ++ ticks3))))) = some (7 + W.length, si.length + 2) := by
    rw [innerMatch, hidx, hlast]
    simp only
    rw [if_pos (by omega)]
    have harith : 7 + W.length + 1 + si.length - (7 + W.length) + 1 =
        si.length + 2 := by
      omega
    rw [harith]
  have hdrop2 : (fenceOpen ++ (W ++ ('{' :: (si ++ '}' ::
      (W2 ++ ticks3))))).drop (7 + W.length) =
      '{' :: (si ++ '}' :: (W2 ++ ticks3)) := by
    have hg : fenceOpen ++ (W ++ ('{' :: (si ++ '}' :: (W2 ++ ticks3)))) =
        (fenceOpen ++ W) ++ '{' :: (si ++ '}' :: (W2 ++ ticks3)) := by
      simp
    have hlen : 7 + W.length = (fenceOpen ++ W).length := by
      simp [fenceOpen]
      omega
    rw [hg, hlen, List.drop_left]
  have htake2 : ('{' :: (si ++ '}' :: (W2 ++ ticks3))).take
      (si.length + 2) = '{' :: (si ++ ['}']) := by
    have hg : '{' :: (si ++ '}' :: (W2 ++ ticks3)) =
        ('{' :: (si ++ ['}'])) ++ (W2 ++ ticks3) := by
      simp
    have hlen : si.length + 2 = ('{' :: (si ++ ['}'])).length := by
      simp
    rw [hg, hlen, List.take_left]
  rw [extractSpan, hff]
  simp only [hdrop, htake, hinner, hdrop2, htake2]

/-- A printed object starts with `{` and ends with `}`. -/
theorem strVal_obj_shape (lvl : Nat) (es : List (String × JsonVal)) :
    ∃ s2, strVal lvl (.obj es) = '{' :: (s2 ++ ['}']) := by
  cases es with
  | nil => exact ⟨[], rfl⟩
  | cons e es2 =>
    refine ⟨Char.ofNat 10 :: indChars (lvl + 1) ++ strEnt (lvl + 1) e ++
      strObjT (lvl + 1) es2 ++ Char.ofNat 10 :: indChars lvl, ?_⟩
    simp [strVal]

/-- A truthy property lookup forces the value to be an object. -/
theorem truthy_getKey_obj (v : JsonVal) (k : String)
    (h : truthy (getKey v k) = true) : ∃ es, v = .obj es := by
  cases v with
  | obj es => exact ⟨es, rfl⟩
  | null => exact absurd h (by simp [getKey, truthy])
  | bool b => exact absurd h (by simp [getKey, truthy])
  | num s => exact absurd h (by simp [getKey, truthy])
  | str s => exact absurd h (by simp [getKey, truthy])
  | arr xs => exact absurd h (by simp [getKey, truthy])

/-- Replacing the span of the leftmost fence by another brace span
leaves the fence the leftmost match, with the new span captured. -/
theorem fenceFind_rewrite (A W si s2 W2 B : List Char)
    (hW : ∀ c ∈ W, isJsWs c = true) (hW2 : ∀ c ∈ W2, isJsWs c = true)
    (hs2 : ∀ c ∈ s2, ¬ c = tick)
    (hff : fenceFind (A ++ (fenceOpen ++ (W ++ ('{' :: (si ++ '}' ::
        (W2 ++ (ticks3 ++ B))))))) =
      some (A.length, 7 + W.length + 1 + (si.length + 1 + W2.length + 3))) :
    fenceFind (A ++ (fenceOpen ++ (W ++ ('{' :: (s2 ++ '}' ::
        (W2 ++ (ticks3 ++ B))))))) =
      some (A.length, 7 + W.length + 1 + (s2.length + 1 + W2.length + 3))
    := by
  have hmin := (fenceFind_min _ _ _ hff).1
  have hg1 : ∀ X : List Char, A ++ (fenceOpen ++ (W ++ X)) =
      ((A ++ fenceOpen) ++ W) ++ X := by
    intro X
    simp
  have hminN : ∀ j, j < A.length →
      fenceAt ((A ++ (fenceOpen ++ (W ++ ('{' :: (s2 ++ '}' ::
        (W2 ++ (ticks3 ++ B))))))).drop j) = none := by
    intro j hj
    have hjP : j ≤ ((A ++ fenceOpen) ++ W).length := by
      simp [fenceOpen]
      omega
    have hd1 : (((A ++ fenceOpen) ++ W) ++ ('{' :: (s2 ++ '}' ::
        (W2 ++ (ticks3 ++ B))))).drop j =
        ((A ++ fenceOpen) ++ W).drop j ++ ('{' :: (s2 ++ '}' ::
          (W2 ++ (ticks3 ++ B)))) := dropE_split _ _ _ hjP
    have hd2 : (((A ++ fenceOpen) ++ W) ++ ('{' :: (si ++ '}' ::
        (W2 ++ (ticks3 ++ B))))).drop j =
        ((A ++ fenceOpen) ++ W).drop j ++ ('{' :: (si ++ '}' ::
          (W2 ++ (ticks3 ++ B)))) := dropE_split _ _ _ hjP
    have hD : 7 ≤ (((A ++ fenceOpen) ++ W).drop j).length := by
      simp [fenceOpen]
      omega
    rcases hA : fenceAt ((A ++ (fenceOpen ++ (W ++ ('{' :: (s2 ++ '}' ::
        (W2 ++ (ticks3 ++ B))))))).drop j) with _ | L
    · rfl
    · exfalso
      rw [hg1, hd1] at hA
      obtain ⟨L2, hL2⟩ := fenceAt_transfer (((A ++ fenceOpen) ++ W).drop j)
        si s2 W2 B L hD hW2 hA
      have hmj := hmin j hj
      rw [hg1 ('{' :: (si ++ '}' :: (W2 ++ (ticks3 ++ B)))), hd2] at hmj
      rw [hmj] at hL2
      exact absurd hL2 (by simp)
  have hT : fenceFind (fenceOpen ++ (W ++ ('{' :: (s2 ++ '}' ::
      (W2 ++ (ticks3 ++ B)))))) =
      some (0, 7 + W.length + 1 + (s2.length + 1 + W2.length + 3)) := by
    have hat := fenceAt_shape W s2 W2 B hW hW2 hs2
    have hcons : fenceOpen ++ (W ++ ('{' :: (s2 ++ '}' ::
        (W2 ++ (ticks3 ++ B))))) =
        tick :: ([tick, tick, 'j', 's', 'o', 'n'] ++ (W ++ ('{' ::
          (s2 ++ '}' :: (W2 ++ (ticks3 ++ B)))))) := rfl
    rw [hcons, fenceFind, ← hcons, hat]
  have hcat := fenceFind_append_none A _ hminN
  rw [hcat, hT]
  simp

/-- `String.replace` with the span's first occurrence splits literally
around it when the serialized replacement holds no dollar sign. -/
theorem replaceFirst_shape (P span S Q : List Char)
    (hfirst : subIdx span (P ++ (span ++ Q)) = some P.length)
    (hdol : ¬ '$' ∈ S) :
    replaceFirst (P ++ (span ++ Q)) span S = P ++ (S ++ Q) := by
  have htake : (P ++ (span ++ Q)).take P.length = P := List.take_left P _
  have hdrop : (P ++ (span ++ Q)).drop (P.length + span.length) = Q := by
    have hg : P ++ (span ++ Q) = (P ++ span) ++ Q := by simp
    have hlen : P.length + span.length = (P ++ span).length := by simp
    rw [hg, hlen, List.drop_left]
  rw [replaceFirst]
  simp only [hfirst, htake, hdrop, applyDollar_id _ _ _ S hdol]
  simp

/-- C9 (amended) — posts round-trip: for a record whose body is a
canonically fenced directive (leftmost fence match, span being the
body's first occurrence of its own text) with a truthy `feed` key, when
the re-serialized directive contains no backquote and no dollar sign and
is well-formed (objects in enumeration order, number lexemes canonical
in the `numCanon` sense), `processIssue` rewrites the body so that
re-running the extractor on the new body captures a span whose re-parse
is a directive whose `posts` field equals the originally resolved post
sequence exactly. -/
theorem roundtrip_resolved_posts (maxPosts K : Nat) (fmt : String → String)
    (oracle : Nat → Except Unit XDoc) (num : Nat)
    (A W si W2 B : List Char) (v : JsonVal)
    (hW : ∀ c ∈ W, isJsWs c = true) (hW2 : ∀ c ∈ W2, isJsWs c = true)
    (hff : fenceFind (A ++ (fenceOpen ++ (W ++ ('{' :: (si ++ '}' ::
        (W2 ++ (ticks3 ++ B))))))) =
      some (A.length, 7 + W.length + 1 + (si.length + 1 + W2.length + 3)))
    (hfirst : subIdx ('{' :: (si ++ ['}'])) (A ++ (fenceOpen ++ (W ++
        ('{' :: (si ++ '}' :: (W2 ++ (ticks3 ++ B))))))) =
      some (A.length + (7 + W.length)))
    (hj : jsonParse ('{' :: (si ++ ['}'])) = some v)
    (ht : truthy (getKey v "feed") = true)
    (htick : ¬ tick ∈ strVal 0 (piData maxPosts fmt oracle v))
    (hdol : ¬ '$' ∈ strVal 0 (piData maxPosts fmt oracle v))
    (hwfd : jsonWF (piData maxPosts fmt oracle v)) :
    ∃ r, (processIssue maxPosts K fmt oracle num (some (A ++ (fenceOpen ++
        (W ++ ('{' :: (si ++ '}' :: (W2 ++ (ticks3 ++ B))))))))).1 =
      some r ∧
    ∃ p sp d2, extractSpan r.newBody = some (p, sp) ∧
      jsonParse sp = some d2 ∧
      getKey d2 "posts" =
        some (postsToJson (parseFeedRun maxPosts fmt (oracle 0)).1) := by
  obtain ⟨es, hv⟩ := truthy_getKey_obj v "feed" ht
  have hd : piData maxPosts fmt oracle v =
      setKey v "posts" (postsToJson (parseFeedRun maxPosts fmt
        (oracle 0)).1) := by
    rw [piData, if_pos ht]
  have hdobj : ∃ es2, piData maxPosts fmt oracle v = .obj es2 := by
    rw [hd, hv, setKey]
    exact ⟨_, rfl⟩
  obtain ⟨es2, hes2⟩ := hdobj
  obtain ⟨s2, hs2⟩ := strVal_obj_shape 0 es2
  have hs2val : strVal 0 (piData maxPosts fmt oracle v) =
      '{' :: (s2 ++ ['}']) := by
    rw [hes2, hs2]
  have hx : extractSpan (A ++ (fenceOpen ++ (W ++ ('{' :: (si ++ '}' ::
      (W2 ++ (ticks3 ++ B))))))) =
      some (A.length + (7 + W.length), '{' :: (si ++ ['}'])) :=
    extractSpan_shape A W si W2 B hW hW2 hff
  have hbne : A ++ (fenceOpen ++ (W ++ ('{' :: (si ++ '}' ::
      (W2 ++ (ticks3 ++ B)))))) ≠ [] := by
    intro h
    have := congrArg List.length h
    simp [fenceOpen] at this
  have hrun := processIssue_run maxPosts K fmt oracle num _ _ _ v hbne hx hj
  have hshift : A ++ (fenceOpen ++ (W ++ ('{' :: (si ++ '}' ::
      (W2 ++ (ticks3 ++ B)))))) =
      ((A ++ fenceOpen) ++ W) ++ (('{' :: (si ++ ['}'])) ++
        (W2 ++ (ticks3 ++ B))) := by
    simp
  have hPlen : ((A ++ fenceOpen) ++ W).length = A.length +
      (7 + W.length) := by
    simp [fenceOpen]
    omega
  have hnew : replaceFirst (A ++ (fenceOpen ++ (W ++ ('{' :: (si ++ '}' ::
      (W2 ++ (ticks3 ++ B))))))) ('{' :: (si ++ ['}']))
      (strVal 0 (piData maxPosts fmt oracle v)) =
      A ++ (fenceOpen ++ (W ++ ('{' :: (s2 ++ '}' ::
        (W2 ++ (ticks3 ++ B)))))) := by
    rw [hshift]
    rw [replaceFirst_shape ((A ++ fenceOpen) ++ W) ('{' :: (si ++ ['}']))
      (strVal 0 (piData maxPosts fmt oracle v)) (W2 ++ (ticks3 ++ B))
      (by rw [← hshift, hPlen]; exact hfirst) hdol]
    rw [hs2val]
    simp
  have hs2tick : ∀ c ∈ s2, ¬ c = tick := by
    intro c hc hct
    subst hct
    exact htick (by
      rw [hs2val]
      exact List.mem_cons_of_mem _ (List.mem_append_left _ hc))
  have hffnew := fenceFind_rewrite A W si s2 W2 B hW hW2 hs2tick hff
  have hxnew : extractSpan (A ++ (fenceOpen ++ (W ++ ('{' :: (s2 ++ '}' ::
      (W2 ++ (ticks3 ++ B))))))) =
      some (A.length + (7 + W.length), '{' :: (s2 ++ ['}'])) :=
    extractSpan_shape A W s2 W2 B hW hW2 hffnew
  refine ⟨⟨piData maxPosts fmt oracle v,
    replaceFirst (A ++ (fenceOpen ++ (W ++ ('{' :: (si ++ '}' ::
      (W2 ++ (ticks3 ++ B))))))) ('{' :: (si ++ ['}']))
      (strVal 0 (piData maxPosts fmt oracle v))⟩, hrun,
    A.length + (7 + W.length), strVal 0 (piData maxPosts fmt oracle v),
    piData maxPosts fmt oracle v, ?_, ?_, ?_⟩
  · rw [hnew, hxnew, hs2val]
  · exact jsonParse_print _ hwfd
  · rw [hd, hv]
    exact getKey_setKey_obj es "posts" _

/-- A directive span whose object references a feed. -/
def spanFeed : List Char := '{' :: (toL "\"feed\":\"u\"" ++ ['}'])

/-- A body that repeats the span text before the fenced block. -/
def bodyFeedDup : List Char :=
  spanFeed ++ Char.ofNat 10 :: (fenceOpen ++ (Char.ofNat 10 ::
    (spanFeed ++ Char.ofNat 10 :: ticks3)))

/-- The directive written back for `bodyFeedDup` under a failing fetch. -/
def cexData : JsonVal := .obj [("feed", .str "u"), ("posts", .arr [])]

/-- The rewritten body for `bodyFeedDup`: the replacement hit the copy of
the span before the fence, so the fence still holds the stale span. -/
def cexNewBody : List Char := strVal 0 cexData ++ (Char.ofNat 10 ::
  (fenceOpen ++ (Char.ofNat 10 :: (spanFeed ++ Char.ofNat 10 :: ticks3))))

/-- C9 counterexample — on a body whose captured span's text also occurs
before the fence, `processIssue` substitutes the first occurrence, so
re-running the extractor on the new body captures the stale span still
inside the fence: the re-parsed directive has no `posts` field at all,
while the written-back directive carries the resolved (empty) posts
array, so the round-trip property fails. -/
theorem roundtrip_fails_cex :
    (processIssue 2 3 (fun _ => "") (fun _ => .error ()) 1
        (some bodyFeedDup)).1 = some ⟨cexData, cexNewBody⟩ ∧
    getKey cexData "posts" =
      some (postsToJson (parseFeedRun 2 (fun _ => "")
        ((fun _ => (.error () : Except Unit XDoc)) 0)).1) ∧
    extractSpan cexNewBody = some (41, spanFeed) ∧
    jsonParse spanFeed = some (.obj [("feed", .str "u")]) ∧
    getKey (.obj [("feed", .str "u")]) "posts" = none := by
  refine ⟨rfl, rfl, ?_, rfl, rfl⟩
  rfl

/-- Witness for C9 (amended) at a concrete body, feed directive and
failing fetch. -/
theorem roundtrip_resolved_posts_witness :
    ∃ r, (processIssue 2 3 (fun _ => "") (fun _ => .error ()) 1
        (some (toL "x" ++ (fenceOpen ++ ([Char.ofNat 10] ++ ('{' ::
          (toL "\"feed\":\"u\"" ++ '}' :: ([Char.ofNat 10] ++
            (ticks3 ++ ([] : List Char)))))))))).1 = some r ∧
      ∃ p sp d2, extractSpan r.newBody = some (p, sp) ∧
        jsonParse sp = some d2 ∧
        getKey d2 "posts" = some (postsToJson (parseFeedRun 2
          (fun _ => "") ((fun _ => (.error () : Except Unit XDoc)) 0)).1) :=
  roundtrip_resolved_posts 2 3 (fun _ => "") (fun _ => .error ()) 1
    (toL "x") [Char.ofNat 10] (toL "\"feed\":\"u\"") [Char.ofNat 10] []
    (.obj [("feed", .str "u")]) (by decide) (by decide) (by decide)
    (by decide) rfl rfl (by decide) (by decide)
    ⟨rfl, trivial, trivial, trivial⟩
